import Mathlib

/-!
The GDSII stream writer of `src/text2gds.cpp`.

A shallow embedding of the record encoder of `text2gds.cpp` and of the line loop of its
`main`, followed by the properties of the byte stream it writes.

Conventions of the embedding.

* A byte is a natural number in `0..255`; the output file is the list of bytes written to it so
  far, and `fwrite` appends to that list.
* `int` and `long` values are integers. `>>` on a `long` is the arithmetic shift `Int.shiftRight`;
  `x & 255` is `and255 x`, the residue of `x` modulo 256 (`and255_eq_land` shows it is the bitwise
  conjunction of the two's-complement representations).
* A cast to `unsigned char` reduces modulo 256, a narrowing of `long` to `int` reduces to the
  signed 32-bit range (`toInt32`).
* The buffer `int coords[1024]` is a function from the index to the stored value; its content
  before the first line is a parameter, since the program does not initialise it.
* An input line is the list of the values `strtol` returns for the successive tokens `strtok`
  cuts out of it.
-/

namespace Text2Gds

/-! ## Machine arithmetic -/

/-- Bytes written to a file, or held in a `char` buffer, each in `0..255`. -/
abbrev Bytes := List Nat

/-- The cast `(unsigned char) x` of an `int`. -/
def toUChar (x : Int) : Nat := (x % 256).toNat

/-- The cast `(unsigned char) x` of a non-negative `int`. -/
def natToUChar (x : Nat) : Nat := x % 256

/-- The conversion of a `long` to `int` (two's complement, 32 bits). -/
def toInt32 (x : Int) : Int := (x + 2147483648) % 4294967296 - 2147483648

/-- The expression `x & 255` on a `long`. -/
def and255 (x : Int) : Int := x % 256

/-- The byte a `char` holds when read back as an unsigned byte, for a stored value in `0..255`. -/
def charByte (x : Int) : Nat := x.toNat

/-! ## The byte tables of `initGDS` -/

/-- The table `gdspreamble[102]`. -/
def gdspreamble : List Int :=
  [0, 6, 0, 2, 0, 7, 0, 28, 1, 2, 230, 43, 0, 1, 0, 1, 0, 0, 0, 0, 0, 0,
   230, 43, 0, 1, 0, 1, 0, 0, 0, 0, 0, 0, 0, 10, 2, 6, 110, 111, 110, 97,
   109, 101, 0, 20, 3, 5, 61, 104, 219, 139, 172, 113, 12, 180, 56, 109,
   243, 127, 103, 94, 246, 236, 0, 28, 5, 2, 0, 114, 0, 4, 0, 17, 0, 13,
   0, 22, 0, 56, 0, 114, 0, 4, 0, 17, 0, 13, 0, 22, 0, 56,
   0, 10, 6, 6, 110, 111, 110, 97, 109, 101]

/-- The table `gdspostamble[8]`. -/
def gdspostamble : List Int := [0, 4, 7, 0, 0, 4, 4, 0]

/-- The table `polypreamble[16]`, with the layer number at offset 9. -/
def polypreamble (layerNumber : Int) : List Int :=
  [0, 4, 8, 0, 0, 6, 13, 2, 0, layerNumber, 0, 6, 14, 2, 0, 0]

/-- The table `polypostamble[4]`. -/
def polypostamble : List Int := [0, 4, 17, 0]

/-- The three buffers `initGDS` fills for its caller. -/
structure Ambles where
  gdsPost : Bytes
  polyPre : Bytes
  polyPost : Bytes
  deriving DecidableEq, Repr

/-- The function `initGDS`: casts the tables to bytes, fills the caller's buffers and writes the
102 bytes of `gdsPre` to the output file. Returns the file and the filled buffers. -/
def initGDS (outputFile : Bytes) (layerNumber : Int) : Bytes × Ambles :=
  let gdsPre := gdspreamble.map toUChar
  let gdsPost := gdspostamble.map toUChar
  let polyPre := (polypreamble layerNumber).map toUChar
  let polyPost := polypostamble.map toUChar
  (outputFile ++ gdsPre.take 102, ⟨gdsPost, polyPre, polyPost⟩)

/-! ## The encoders -/

/-- The function `getPolyForm`: the four header bytes of the XY record. -/
def getPolyForm (tokenCount : Nat) : Bytes :=
  let byteCt := 4 + 4 * tokenCount
  [byteCt >>> 8, byteCt &&& 255, 16, 3].map natToUChar

/-- The function `encode32`: the four bytes left in `cPart`. -/
def encode32 (aCoord : Int) : Bytes :=
  [charByte (and255 (aCoord >>> (24 : Nat))),
   charByte (and255 (aCoord >>> (16 : Nat))),
   charByte (and255 (aCoord >>> (8 : Nat))),
   charByte (and255 aCoord)]

/-- The function `encodePoly32`: the content of `cCoords[0 .. 4 * tokenCount)` after the loop
has run `tokenCount` times; iteration `k` stores `encode32 (coords[k])` at `4k .. 4k + 3`. -/
def encodePoly32 (coords : Nat → Int) : Nat → Bytes
  | 0 => []
  | k + 1 => encodePoly32 coords k ++ encode32 (coords k)

/-- The function `renderGDS`: writes the 8 bytes of `gdsPost` and closes the file. -/
def renderGDS (outputFile : Bytes) (gdsPost : Bytes) : Bytes :=
  outputFile ++ gdsPost.take 8

/-- The function `exportPolygon`: four `fwrite` calls, of 16, 4, `4 * tokenCount` and 4 bytes. -/
def exportPolygon (coords : Nat → Int) (polyPre polyPost : Bytes) (outputFile : Bytes)
    (tokenCount : Nat) : Bytes :=
  let polyForm := getPolyForm tokenCount
  let polyByteCount := tokenCount * 4
  let cCoords := encodePoly32 coords tokenCount
  outputFile ++ polyPre.take 16 ++ polyForm.take 4 ++ cCoords.take polyByteCount
    ++ polyPost.take 4

/-! ## The line loop of `main` -/

/-- The assignment `coords[i] = v`. -/
def setAt (coords : Nat → Int) (i : Nat) (v : Int) : Nat → Int :=
  fun j => if j = i then v else coords j

/-- The tokenizing loop of `main`: stores each token and stops after the token that makes
`tokenCount` exceed 512, or when the tokens are exhausted. -/
def tokenize : List Int → (Nat → Int) → Nat → (Nat → Int) × Nat
  | [], coords, tokenCount => (coords, tokenCount)
  | token :: rest, coords, tokenCount =>
    let coords := setAt coords tokenCount (toInt32 token)
    let tokenCount := tokenCount + 1
    if tokenCount > 512 then (coords, tokenCount) else tokenize rest coords tokenCount

/-- The three statements of `main` that append the closing pair. -/
def closeBoundary (coords : Nat → Int) (tokenCount : Nat) : (Nat → Int) × Nat :=
  let coords := setAt coords tokenCount (coords 0)
  let coords := setAt coords (tokenCount + 1) (coords 1)
  (coords, tokenCount + 2)

/-- How a run of `main` ends: after the postamble, or at one of the two `ERROR` messages, which
carry the line number. -/
inductive Status where
  | success
  | oddCoordinateCount (lineCount : Nat)
  | tooManyVertices (lineCount : Nat)
  deriving DecidableEq, Repr

/-- The outcome of a run: how it ended, the bytes in the output file, and the number of lines
read. -/
structure Run where
  status : Status
  outputFile : Bytes
  lineCount : Nat
  deriving DecidableEq, Repr

/-- The `while (getline ...)` loop of `main`, from a given state, followed by `renderGDS` when the
lines are exhausted. -/
def readLines (am : Ambles) : List (List Int) → (Nat → Int) → Nat → Bytes → Run
  | [], _, lineCount, outputFile => ⟨Status.success, renderGDS outputFile am.gdsPost, lineCount⟩
  | line :: rest, coords, lineCount, outputFile =>
    let lineCount := lineCount + 1
    let (coords, tokenCount) := tokenize line coords 0
    let (coords, tokenCount) := closeBoundary coords tokenCount
    if tokenCount % 2 ≠ 0 then
      ⟨Status.oddCoordinateCount lineCount, outputFile, lineCount⟩
    else if tokenCount > 512 then
      ⟨Status.tooManyVertices lineCount, outputFile, lineCount⟩
    else
      readLines am rest coords lineCount
        (exportPolygon coords am.polyPre am.polyPost outputFile tokenCount)

/-- The body of `main` for a given layer number, once both files are open: `initGDS` on the empty
output file, then the line loop. `coords` is the initial content of the buffer. -/
def mainWith (layerNumber : Int) (coords : Nat → Int) (lines : List (List Int)) : Run :=
  let (outputFile, am) := initGDS [] layerNumber
  readLines am lines coords 0 outputFile

/-- The function `main`, where `layerNumber` is the constant 0. -/
def main (coords : Nat → Int) (lines : List (List Int)) : Run :=
  mainWith 0 coords lines

/-! ## Reading the stream back -/

/-- The inverse big-endian decode of four unsigned bytes: the 32-bit two's-complement value of
`b0 * 2^24 + b1 * 2^16 + b2 * 2^8 + b3`. -/
def decode32 : Bytes → Int
  | [b0, b1, b2, b3] =>
    toInt32 ((b0 : Int) * 2 ^ 24 + (b1 : Int) * 2 ^ 16 + (b2 : Int) * 2 ^ 8 + (b3 : Int))
  | _ => 0

/-- The unsigned big-endian 16-bit value of the first two bytes of a record. -/
def decode16 : Bytes → Nat
  | b0 :: b1 :: _ => b0 * 256 + b1
  | _ => 0

/-- Decoding a payload four bytes at a time, `n` times. -/
def decodePayload : Nat → Bytes → List Int
  | 0, _ => []
  | n + 1, bs => decode32 (bs.take 4) :: decodePayload n (bs.drop 4)

/-- The first `n` entries of the buffer, as a list. -/
def coordList (coords : Nat → Int) (n : Nat) : List Int := (List.range n).map coords

/-- The buffer that holds the list `c` from index 0 on (and 0 elsewhere). -/
def ofList (c : List Int) : Nat → Int := fun i => c.getD i 0

/-- A value is a signed 32-bit integer. -/
def IsInt32 (v : Int) : Prop := -2147483648 ≤ v ∧ v < 2147483648

instance (v : Int) : Decidable (IsInt32 v) := by unfold IsInt32; infer_instance

/-- The XY record of a polygon: the bytes of the second and third `fwrite` of `exportPolygon`. -/
def xyRecord (coords : Nat → Int) (tokenCount : Nat) : Bytes :=
  (getPolyForm tokenCount).take 4 ++ (encodePoly32 coords tokenCount).take (tokenCount * 4)

/-- The buffers `initGDS` hands to `main` for a layer number. -/
def amblesOf (layerNumber : Int) : Ambles := (initGDS [] layerNumber).2

/-- The bytes `exportPolygon` appends to an empty file for the coordinate list `c` held at the
start of the buffer, with the buffers of `initGDS` for the layer. -/
def polyBlock (layerNumber : Int) (c : List Int) : Bytes :=
  exportPolygon (ofList c) (amblesOf layerNumber).polyPre (amblesOf layerNumber).polyPost []
    c.length

/-- Each coordinate's four-byte encoding, in the order of the list. -/
def encodeList : List Int → Bytes
  | [] => []
  | v :: vs => encode32 v ++ encodeList vs

/-- The first pair the buffer holds once a line is tokenized: the first two tokens of the line,
or what the buffer held before at an index the line has no token for. -/
def firstPair (prev : Int × Int) (line : List Int) : Int × Int :=
  ((line.map toInt32).getD 0 prev.1, (line.map toInt32).getD 1 prev.2)

/-- The closed boundary of a line: its coordinates followed by the first pair. -/
def closedList (prev : Int × Int) (line : List Int) : List Int :=
  line.map toInt32 ++ [(firstPair prev line).1, (firstPair prev line).2]

/-- The polygon blocks of a sequence of lines, one per line, in the order of the lines. -/
def blocks (layerNumber : Int) : Int × Int → List (List Int) → List Bytes
  | _, [] => []
  | prev, line :: rest =>
    polyBlock layerNumber (closedList prev line) :: blocks layerNumber (firstPair prev line) rest

/-- A line the tool accepts: an even number of tokens, at most 512 integers once closed. -/
def Accepted (line : List Int) : Prop := line.length % 2 = 0 ∧ line.length + 2 ≤ 512

instance (line : List Int) : Decidable (Accepted line) := by unfold Accepted; infer_instance

/-- The buffer after the closing pair of a line is appended. -/
def closedBuffer (coords : Nat → Int) (line : List Int) : Nat → Int :=
  (closeBoundary (tokenize line coords 0).1 (tokenize line coords 0).2).1

/-- The buffer after a sequence of accepted lines has been tokenized and closed. -/
def bufferAfter (coords : Nat → Int) : List (List Int) → Nat → Int
  | [] => coords
  | line :: rest => bufferAfter (closedBuffer coords line) rest

/-- How the loop of `main` stops at a line it rejects: at the too-many-vertices message for a
line of 512 tokens, at the odd-coordinate-count message otherwise. -/
def rejection (line : List Int) (lineCount : Nat) : Status :=
  if line.length = 512 then Status.tooManyVertices lineCount
  else Status.oddCoordinateCount lineCount

/-- Walking a byte stream record by record: read the 2-byte big-endian length `L`, require it
to be even with `4 ≤ L ≤ 65535` and not to run past the end of the stream, skip `L` bytes and
go on. Gives the lengths visited when the walk ends exactly at the end of the stream; `fuel`
bounds the number of records read. -/
def walkRecords : Nat → Bytes → Option (List Nat)
  | 0, _ => none
  | _ + 1, [] => some []
  | fuel + 1, b :: bs =>
    if 4 ≤ decode16 (b :: bs) ∧ decode16 (b :: bs) % 2 = 0 ∧ decode16 (b :: bs) ≤ 65535 ∧
        decode16 (b :: bs) ≤ (b :: bs).length then
      (walkRecords fuel ((b :: bs).drop (decode16 (b :: bs)))).map
        (fun ls => decode16 (b :: bs) :: ls)
    else none

/-- A record whose first two bytes hold its own length, which is even and in `4..65535`. -/
def WellFramed (r : Bytes) : Prop :=
  decode16 r = r.length ∧ 4 ≤ r.length ∧ r.length % 2 = 0 ∧ r.length ≤ 65535

/-- The lengths of the five records of each polygon block, line by line. -/
def lineRecordLengths : List (List Int) → List Nat
  | [] => []
  | line :: rest => [4, 6, 6, 4 + 4 * (line.length + 2), 4] ++ lineRecordLengths rest

/-- The six records of the library preamble. -/
def preambleRecords : List Bytes :=
  [[0, 6, 0, 2, 0, 7],
   [0, 28, 1, 2, 230, 43, 0, 1, 0, 1, 0, 0, 0, 0, 0, 0, 230, 43, 0, 1, 0, 1, 0, 0, 0, 0, 0, 0],
   [0, 10, 2, 6, 110, 111, 110, 97, 109, 101],
   [0, 20, 3, 5, 61, 104, 219, 139, 172, 113, 12, 180, 56, 109, 243, 127, 103, 94, 246, 236],
   [0, 28, 5, 2, 0, 114, 0, 4, 0, 17, 0, 13, 0, 22, 0, 56, 0, 114, 0, 4, 0, 17, 0, 13, 0, 22,
    0, 56],
   [0, 10, 6, 6, 110, 111, 110, 97, 109, 101]]

/-- The five records of the polygon block of a closed coordinate list. -/
def blockRecords (layerNumber : Int) (c : List Int) : List Bytes :=
  [[0, 4, 8, 0], [0, 6, 13, 2, 0, toUChar layerNumber], [0, 6, 14, 2, 0, 0],
   getPolyForm c.length ++ encodeList c, [0, 4, 17, 0]]

/-- The records of the polygon blocks of a sequence of lines. -/
def linesRecords (layerNumber : Int) : Int × Int → List (List Int) → List Bytes
  | _, [] => []
  | prev, line :: rest =>
    blockRecords layerNumber (closedList prev line) ++
      linesRecords layerNumber (firstPair prev line) rest

/-- The indices of `coords` the tokenizing loop of `main` writes, in order. -/
def tokenizeWrites : List Int → Nat → List Nat
  | [], _ => []
  | _ :: rest, tokenCount =>
    tokenCount :: (if tokenCount + 1 > 512 then [] else tokenizeWrites rest (tokenCount + 1))

/-- The indices of `coords` the closing statements of `main` write. -/
def closeWrites (tokenCount : Nat) : List Nat := [tokenCount, tokenCount + 1]

/-- The indices of `coords` that `main` writes while it handles one line. -/
def lineWrites (line : List Int) (coords : Nat → Int) : List Nat :=
  tokenizeWrites line 0 ++ closeWrites (tokenize line coords 0).2

/-- The values of `tokenCount` with which the loop of `main` calls `exportPolygon`, in order. -/
def exportCalls : List (List Int) → (Nat → Int) → List Nat
  | [], _ => []
  | line :: rest, coords =>
    let (coords, tokenCount) := tokenize line coords 0
    let (coords, tokenCount) := closeBoundary coords tokenCount
    if tokenCount % 2 ≠ 0 then []
    else if tokenCount > 512 then []
    else tokenCount :: exportCalls rest coords

/-- The accesses of `encodePoly32`: in iteration `k`, for `m` in `0..3`, it reads `coords[k]`
and writes `cCoords[k * 4 + m]`. Each entry is the pair of the index read and the index
written. -/
def encodePoly32Accesses : Nat → List (Nat × Nat)
  | 0 => []
  | k + 1 =>
    encodePoly32Accesses k ++ [(k, k * 4 + 0), (k, k * 4 + 1), (k, k * 4 + 2), (k, k * 4 + 3)]

/-! ## Arithmetic of the encoders -/

theorem ldiff_255 (m : Nat) : Nat.ldiff 255 m = 255 - m % 256 := by
  apply Nat.eq_of_testBit_eq
  intro i
  have h1 : (255 : Nat) = 2 ^ 8 - 1 := by norm_num
  have h2 : 255 - m % 256 = 2 ^ 8 - (m % 2 ^ 8 + 1) := by omega
  rw [Nat.testBit_ldiff, h2, Nat.testBit_two_pow_sub_succ (Nat.mod_lt _ (by norm_num)), h1,
    Nat.testBit_two_pow_sub_one, Nat.testBit_mod_two_pow]
  by_cases h : i < 8 <;> simp [h]

/-- The residue modulo 256 is the bitwise conjunction with 255 on two's-complement integers. -/
theorem and255_eq_land (x : Int) : and255 x = Int.land x 255 := by
  unfold and255
  cases x with
  | ofNat m =>
    show _ = ((m &&& 255 : Nat) : Int)
    have h : m &&& 255 = m % 256 := Nat.and_pow_two_sub_one_eq_mod m 8
    rw [h]; rfl
  | negSucc m =>
    show _ = ((Nat.ldiff 255 m : Nat) : Int)
    rw [ldiff_255, Int.negSucc_eq]
    omega

theorem encode32_eq (v : Int) :
    encode32 v = [(v / 16777216 % 256).toNat, (v / 65536 % 256).toNat, (v / 256 % 256).toNat,
      (v % 256).toNat] := by
  simp only [encode32, charByte, and255, Int.shiftRight_eq_div_pow]
  norm_num

theorem encode32_length (v : Int) : (encode32 v).length = 4 := rfl

theorem encode32_toInt32 (v : Int) : encode32 (toInt32 v) = encode32 v := by
  simp only [encode32_eq, toInt32]
  have h0 : ∀ a b : Int, a = b → a.toNat = b.toNat := fun _ _ h => by rw [h]
  refine congrArg₂ _ (h0 _ _ ?_) (congrArg₂ _ (h0 _ _ ?_) (congrArg₂ _ (h0 _ _ ?_)
    (congrArg₂ _ (h0 _ _ ?_) rfl))) <;> omega

theorem decode32_encode32 (v : Int) : decode32 (encode32 v) = toInt32 v := by
  simp only [encode32_eq, decode32, toInt32]
  have e1 : ((v / 16777216 % 256).toNat : Int) = v / 16777216 % 256 :=
    Int.toNat_of_nonneg (by omega)
  have e2 : ((v / 65536 % 256).toNat : Int) = v / 65536 % 256 := Int.toNat_of_nonneg (by omega)
  have e3 : ((v / 256 % 256).toNat : Int) = v / 256 % 256 := Int.toNat_of_nonneg (by omega)
  have e4 : ((v % 256).toNat : Int) = v % 256 := Int.toNat_of_nonneg (by omega)
  rw [e1, e2, e3, e4]
  norm_num
  omega

theorem toInt32_of_isInt32 (v : Int) (hv : IsInt32 v) : toInt32 v = v := by
  unfold IsInt32 at hv
  unfold toInt32
  omega

/-- C1: for every signed 32-bit integer `v`, decoding the four bytes of `encode32 v` big-endian
as a 32-bit two's-complement value gives `v` back. -/
theorem encode32_roundtrip (v : Int) (hv : IsInt32 v) : decode32 (encode32 v) = v := by
  rw [decode32_encode32, toInt32_of_isInt32 v hv]

theorem encode32_roundtrip_witness :
    IsInt32 (-2147483648) ∧ decode32 (encode32 (-2147483648)) = -2147483648 :=
  ⟨by decide, encode32_roundtrip (-2147483648) (by decide)⟩

/-- C2: for every signed 32-bit integer `v` (indeed for every integer) and every `i` in `0..3`,
byte `i` of `encode32 v` is `((v mod 2^32) div 2^(8*(3-i))) mod 256`, so byte 0 holds bits 31..24
and byte 3 holds bits 7..0 of the two's-complement representation; `-1` encodes as
`FF FF FF FF`. -/
theorem encode32_layout :
    (∀ (v : Int) (i : Fin 4),
      (encode32 v)[i.val]? = some ((v % 2 ^ 32 / 2 ^ (8 * (3 - i.val)) % 256).toNat)) ∧
    encode32 (-1) = [255, 255, 255, 255] := by
  refine ⟨?_, by decide⟩
  intro v i
  have h0 : ∀ a b : Int, a = b → some a.toNat = some b.toNat := fun _ _ h => by rw [h]
  rw [encode32_eq]
  fin_cases i <;> simp only [List.getElem?_cons_zero, List.getElem?_cons_succ] <;>
    apply h0 <;> norm_num <;> omega

/-! ## The encoders on lists -/

theorem getPolyForm_eq (n : Nat) :
    getPolyForm n = [(4 + 4 * n) / 256 % 256, (4 + 4 * n) % 256, 16, 3] := by
  have h : (4 + 4 * n) &&& 255 = (4 + 4 * n) % 256 := Nat.and_pow_two_sub_one_eq_mod _ 8
  simp [getPolyForm, natToUChar, Nat.shiftRight_eq_div_pow, h]

theorem getPolyForm_length (n : Nat) : (getPolyForm n).length = 4 := by
  simp [getPolyForm]

theorem encodePoly32_length (coords : Nat → Int) (n : Nat) :
    (encodePoly32 coords n).length = 4 * n := by
  induction n with
  | zero => rfl
  | succ k ih => simp only [encodePoly32, List.length_append, ih, encode32_length]; omega

theorem encodePoly32_congr (c1 c2 : Nat → Int) (n : Nat) (h : ∀ k, k < n → c1 k = c2 k) :
    encodePoly32 c1 n = encodePoly32 c2 n := by
  induction n with
  | zero => rfl
  | succ k ih =>
    simp only [encodePoly32]
    rw [ih (fun j hj => h j (Nat.lt_succ_of_lt hj)), h k (Nat.lt_succ_self k)]

theorem encodePoly32_shift (coords : Nat → Int) (n : Nat) :
    encodePoly32 coords (n + 1) = encode32 (coords 0) ++ encodePoly32 (fun i => coords (i + 1)) n := by
  induction n with
  | zero => simp [encodePoly32]
  | succ k ih =>
    rw [encodePoly32, ih]
    simp only [encodePoly32, List.append_assoc]

theorem coordList_succ (coords : Nat → Int) (n : Nat) :
    coordList coords (n + 1) = coords 0 :: coordList (fun i => coords (i + 1)) n := by
  simp [coordList, List.range_succ_eq_map, List.map_map, Function.comp_def]

theorem coordList_length (coords : Nat → Int) (n : Nat) : (coordList coords n).length = n := by
  simp [coordList]

theorem encodePoly32_eq_encodeList (coords : Nat → Int) (n : Nat) :
    encodePoly32 coords n = encodeList (coordList coords n) := by
  induction n generalizing coords with
  | zero => rfl
  | succ k ih => rw [encodePoly32_shift, coordList_succ, encodeList, ih]

theorem encodePoly32_slice (coords : Nat → Int) (n k : Nat) (hk : k < n) :
    ((encodePoly32 coords n).drop (4 * k)).take 4 = encode32 (coords k) := by
  induction n with
  | zero => omega
  | succ m ih =>
    rw [encodePoly32]
    by_cases hkm : k < m
    · have hlen : 4 * k + 4 ≤ (encodePoly32 coords m).length := by
        rw [encodePoly32_length]; omega
      rw [List.drop_append_of_le_length (by omega),
        List.take_append_of_le_length (by rw [List.length_drop]; omega)]
      exact ih hkm
    · have hkm2 : k = m := by omega
      subst hkm2
      have hlen : (encodePoly32 coords k).length = 4 * k := encodePoly32_length coords k
      rw [← hlen, List.drop_left]
      exact List.take_of_length_le (by rw [encode32_length])

theorem decodePayload_encodePoly32 (coords : Nat → Int) (n : Nat) :
    decodePayload n (encodePoly32 coords n) = (coordList coords n).map toInt32 := by
  induction n generalizing coords with
  | zero => rfl
  | succ k ih =>
    rw [encodePoly32_shift, coordList_succ, decodePayload]
    have h4 : (encode32 (coords 0)).length = 4 := encode32_length _
    rw [List.take_append_of_le_length (by omega), List.take_of_length_le (by omega),
      ← h4, List.drop_left, ih, decode32_encode32]
    rfl

theorem coordList_map_toInt32 (coords : Nat → Int) (n : Nat)
    (h : ∀ k, k < n → IsInt32 (coords k)) : (coordList coords n).map toInt32 = coordList coords n := by
  unfold coordList
  rw [List.map_map]
  apply List.map_congr_left
  intro k hk
  exact toInt32_of_isInt32 _ (h k (List.mem_range.mp hk))

theorem coordList_ofList (c : List Int) : coordList (ofList c) c.length = c := by
  apply List.ext_getElem
  · simp [coordList]
  · intro i h1 h2
    simp [coordList, ofList, List.getD_eq_getElem?_getD, List.getElem?_eq_getElem h2]

theorem coordList_congr (c1 c2 : Nat → Int) (n : Nat) (h : ∀ k, k < n → c1 k = c2 k) :
    coordList c1 n = coordList c2 n := by
  unfold coordList
  apply List.map_congr_left
  intro k hk
  exact h k (List.mem_range.mp hk)

theorem xyRecord_eq (coords : Nat → Int) (n : Nat) :
    xyRecord coords n = getPolyForm n ++ encodePoly32 coords n := by
  unfold xyRecord
  rw [List.take_of_length_le (by rw [getPolyForm_length]),
    List.take_of_length_le (by rw [encodePoly32_length]; omega)]

theorem xyRecord_length (coords : Nat → Int) (n : Nat) : (xyRecord coords n).length = 4 + 4 * n := by
  rw [xyRecord_eq, List.length_append, getPolyForm_length, encodePoly32_length]

theorem polyPre_eq (layerNumber : Int) :
    (amblesOf layerNumber).polyPre =
      [0, 4, 8, 0, 0, 6, 13, 2, 0, toUChar layerNumber, 0, 6, 14, 2, 0, 0] := by
  simp [amblesOf, initGDS, polypreamble, toUChar]

theorem polyPost_eq (layerNumber : Int) : (amblesOf layerNumber).polyPost = [0, 4, 17, 0] := by
  simp [amblesOf, initGDS, polypostamble, toUChar]

theorem gdsPost_eq (layerNumber : Int) :
    (amblesOf layerNumber).gdsPost = [0, 4, 7, 0, 0, 4, 4, 0] := by
  simp [amblesOf, initGDS, gdspostamble, toUChar]

theorem exportPolygon_eq (layerNumber : Int) (coords : Nat → Int) (outputFile : Bytes) (n : Nat) :
    exportPolygon coords (amblesOf layerNumber).polyPre (amblesOf layerNumber).polyPost
        outputFile n =
      outputFile ++ ((amblesOf layerNumber).polyPre ++ xyRecord coords n ++ [0, 4, 17, 0]) := by
  rw [polyPost_eq, polyPre_eq]
  simp only [exportPolygon, xyRecord, List.take, List.append_assoc]

theorem polyBlock_eq (layerNumber : Int) (coords : Nat → Int) (n : Nat) :
    polyBlock layerNumber (coordList coords n) =
      (amblesOf layerNumber).polyPre ++ xyRecord coords n ++ [0, 4, 17, 0] := by
  unfold polyBlock
  have h := coordList_ofList (coordList coords n)
  rw [coordList_length] at h
  rw [exportPolygon_eq, List.nil_append, coordList_length, xyRecord_eq, xyRecord_eq,
    encodePoly32_eq_encodeList, encodePoly32_eq_encodeList, h]

/-! ## The XY record and the polygon block -/

/-- C3: for every coordinate list of length `N ≤ 512` (of even length in particular) the XY record
that `exportPolygon` emits, the header of `getPolyForm` followed by the encoded coordinates, is
`4 + 4 * N` bytes long and its first two bytes, read as an unsigned big-endian 16-bit integer,
equal that length. -/
theorem xyRecord_length_field (layerNumber : Int) (coords : Nat → Int) (outputFile : Bytes)
    (N : Nat) (hN : N ≤ 512) :
    exportPolygon coords (amblesOf layerNumber).polyPre (amblesOf layerNumber).polyPost
        outputFile N =
      outputFile ++ ((amblesOf layerNumber).polyPre ++ xyRecord coords N ++ [0, 4, 17, 0]) ∧
    xyRecord coords N = getPolyForm N ++ encodePoly32 coords N ∧
    (xyRecord coords N).length = 4 + 4 * N ∧
    decode16 (xyRecord coords N) = (xyRecord coords N).length := by
  refine ⟨exportPolygon_eq _ _ _ _, xyRecord_eq _ _, xyRecord_length _ _, ?_⟩
  rw [xyRecord_length, xyRecord_eq, getPolyForm_eq]
  simp only [List.cons_append, decode16]
  omega

theorem xyRecord_length_field_witness :
    (6 : Nat) ≤ 512 ∧
    decode16 (xyRecord (ofList [0, 0, 10, 0, 10, 10]) 6) =
      (xyRecord (ofList [0, 0, 10, 0, 10, 10]) 6).length :=
  ⟨by decide, (xyRecord_length_field 0 (ofList [0, 0, 10, 0, 10, 10]) [] 6 (by decide)).2.2.2⟩

/-- C4: for every coordinate list of length `N` the tool accepts (`N ≤ 512`, signed 32-bit
entries) the XY record is the four bytes `[byteCt >> 8, byteCt & 255, 16, 3]` with
`byteCt = 4 + 4 * N`, followed by exactly `4 * N` payload bytes; bytes `4k .. 4k + 3` of the
payload are `encode32 (c[k])`, and decoding the payload four bytes at a time returns the list in
its input order. -/
theorem xyRecord_content (coords : Nat → Int) (N : Nat) (hN : N ≤ 512)
    (hc : ∀ k, k < N → IsInt32 (coords k)) :
    xyRecord coords N =
      [(4 + 4 * N) >>> 8, (4 + 4 * N) &&& 255, 16, 3] ++ encodePoly32 coords N ∧
    (encodePoly32 coords N).length = 4 * N ∧
    (∀ k, k < N → ((encodePoly32 coords N).drop (4 * k)).take 4 = encode32 (coords k)) ∧
    decodePayload N (encodePoly32 coords N) = coordList coords N := by
  refine ⟨?_, encodePoly32_length _ _, fun k hk => encodePoly32_slice _ _ _ hk, ?_⟩
  · have h : (4 + 4 * N) &&& 255 = (4 + 4 * N) % 256 := Nat.and_pow_two_sub_one_eq_mod _ 8
    rw [xyRecord_eq, getPolyForm_eq, h, Nat.shiftRight_eq_div_pow]
    have h1 : (4 + 4 * N) / 2 ^ 8 % 256 = (4 + 4 * N) / 2 ^ 8 := by omega
    have h2 : (4 + 4 * N) / 256 = (4 + 4 * N) / 2 ^ 8 := by norm_num
    rw [h2, h1]
  · rw [decodePayload_encodePoly32, coordList_map_toInt32 _ _ hc]

theorem xyRecord_content_witness :
    decodePayload 4 (encodePoly32 (ofList [-1, 2, -3, 4]) 4) =
      coordList (ofList [-1, 2, -3, 4]) 4 :=
  (xyRecord_content (ofList [-1, 2, -3, 4]) 4 (by decide)
    (fun k hk => by
      have h : k = 0 ∨ k = 1 ∨ k = 2 ∨ k = 3 := by omega
      rcases h with h | h | h | h <;> subst h <;> decide)).2.2.2

/-- C5: the bytes `exportPolygon` appends for a coordinate list of length `N` are the 16-byte
boundary-open/layer/datatype block, then the XY record of `4 + 4 * N` bytes, then the
boundary-close record `[0, 4, 17, 0]`, with nothing in between; the block is `24 + 4 * N` bytes
long and is a function of the layer and of the coordinate list alone, whatever the file held
before and whatever the buffer holds beyond the list. -/
theorem polygon_block_layout (layerNumber : Int) (coords : Nat → Int) (outputFile : Bytes)
    (N : Nat) :
    exportPolygon coords (amblesOf layerNumber).polyPre (amblesOf layerNumber).polyPost
        outputFile N =
      outputFile ++ ([0, 4, 8, 0, 0, 6, 13, 2, 0, toUChar layerNumber, 0, 6, 14, 2, 0, 0] ++
        xyRecord coords N ++ [0, 4, 17, 0]) ∧
    (xyRecord coords N).length = 4 + 4 * N ∧
    ([0, 4, 8, 0, 0, 6, 13, 2, 0, toUChar layerNumber, 0, 6, 14, 2, 0, 0] ++
        xyRecord coords N ++ [0, 4, 17, 0]).length = 24 + 4 * N ∧
    exportPolygon coords (amblesOf layerNumber).polyPre (amblesOf layerNumber).polyPost
        outputFile N = outputFile ++ polyBlock layerNumber (coordList coords N) := by
  refine ⟨?_, xyRecord_length _ _, ?_, ?_⟩
  · rw [exportPolygon_eq, polyPre_eq]
  · simp only [List.length_append, xyRecord_length, List.length_cons, List.length_nil]
    omega
  · rw [exportPolygon_eq, polyBlock_eq]

/-! ## The tokenizing loop -/

theorem tokenize_short (ts : List Int) (coords : Nat → Int) (k : Nat)
    (h : k + ts.length ≤ 512) :
    (tokenize ts coords k).2 = k + ts.length ∧
    ∀ j, (tokenize ts coords k).1 j =
      if k ≤ j ∧ j < k + ts.length then toInt32 (ts.getD (j - k) 0) else coords j := by
  induction ts generalizing coords k with
  | nil =>
    refine ⟨rfl, fun j => ?_⟩
    have hj : ¬ (k ≤ j ∧ j < k + ([] : List Int).length) := by simp
    rw [if_neg hj]
    rfl
  | cons t rest ih =>
    have hlen : (t :: rest).length = rest.length + 1 := rfl
    have hk : ¬ (k + 1 > 512) := by omega
    have ih2 := ih (setAt coords k (toInt32 t)) (k + 1) (by omega)
    simp only [tokenize, hk, if_false]
    refine ⟨by rw [ih2.1]; omega, fun j => ?_⟩
    rw [ih2.2 j]
    by_cases hj : k + 1 ≤ j ∧ j < k + 1 + rest.length
    · have hj2 : k ≤ j ∧ j < k + (t :: rest).length := by omega
      have hjk : j - k = (j - (k + 1)) + 1 := by omega
      rw [if_pos hj, if_pos hj2, hjk]
      rfl
    · rw [if_neg hj]
      by_cases hjk : j = k
      · subst hjk
        have hj2 : j ≤ j ∧ j < j + (t :: rest).length := by omega
        rw [if_pos hj2, Nat.sub_self]
        simp [setAt]
      · have hj2 : ¬ (k ≤ j ∧ j < k + (t :: rest).length) := by omega
        rw [if_neg hj2]
        simp [setAt, hjk]

theorem tokenize_count (ts : List Int) (coords : Nat → Int) (k : Nat) (h : k ≤ 512) :
    (tokenize ts coords k).2 = min (k + ts.length) 513 := by
  induction ts generalizing coords k with
  | nil => simp [tokenize]; omega
  | cons t rest ih =>
    have hlen : (t :: rest).length = rest.length + 1 := rfl
    by_cases hk : k + 1 > 512
    · simp only [tokenize, hk, if_true]
      omega
    · simp only [tokenize, hk, if_false]
      rw [ih _ (k + 1) (by omega)]
      omega

theorem tokenize_zero_count (line : List Int) (coords : Nat → Int) :
    (tokenize line coords 0).2 = min line.length 513 := by
  rw [tokenize_count line coords 0 (by omega), Nat.zero_add]

/-! ## One pass of the line loop -/

theorem readLines_cons (am : Ambles) (line : List Int) (rest : List (List Int))
    (coords : Nat → Int) (lineCount : Nat) (outputFile : Bytes) :
    readLines am (line :: rest) coords lineCount outputFile =
      if ((tokenize line coords 0).2 + 2) % 2 ≠ 0 then
        ⟨Status.oddCoordinateCount (lineCount + 1), outputFile, lineCount + 1⟩
      else if (tokenize line coords 0).2 + 2 > 512 then
        ⟨Status.tooManyVertices (lineCount + 1), outputFile, lineCount + 1⟩
      else
        readLines am rest (closedBuffer coords line) (lineCount + 1)
          (exportPolygon (closedBuffer coords line) am.polyPre am.polyPost outputFile
            ((tokenize line coords 0).2 + 2)) := rfl

theorem readLines_odd (am : Ambles) (line : List Int) (rest : List (List Int))
    (coords : Nat → Int) (lineCount : Nat) (outputFile : Bytes) (h : line.length % 2 = 1) :
    readLines am (line :: rest) coords lineCount outputFile =
      ⟨Status.oddCoordinateCount (lineCount + 1), outputFile, lineCount + 1⟩ := by
  rw [readLines_cons, tokenize_zero_count]
  have h2 : (min line.length 513 + 2) % 2 ≠ 0 := by omega
  rw [if_pos h2]

theorem readLines_long (am : Ambles) (line : List Int) (rest : List (List Int))
    (coords : Nat → Int) (lineCount : Nat) (outputFile : Bytes) (h : 512 < line.length) :
    readLines am (line :: rest) coords lineCount outputFile =
      ⟨Status.oddCoordinateCount (lineCount + 1), outputFile, lineCount + 1⟩ := by
  rw [readLines_cons, tokenize_zero_count]
  have h2 : (min line.length 513 + 2) % 2 ≠ 0 := by omega
  rw [if_pos h2]

theorem readLines_512 (am : Ambles) (line : List Int) (rest : List (List Int))
    (coords : Nat → Int) (lineCount : Nat) (outputFile : Bytes) (h : line.length = 512) :
    readLines am (line :: rest) coords lineCount outputFile =
      ⟨Status.tooManyVertices (lineCount + 1), outputFile, lineCount + 1⟩ := by
  rw [readLines_cons, tokenize_zero_count, h]
  rfl

theorem closedBuffer_apply (coords : Nat → Int) (line : List Int) (h : Accepted line) (j : Nat) :
    closedBuffer coords line j =
      if j < line.length then toInt32 (line.getD j 0)
      else if j = line.length then (firstPair (coords 0, coords 1) line).1
      else if j = line.length + 1 then (firstPair (coords 0, coords 1) line).2
      else coords j := by
  obtain ⟨heven, hle⟩ := h
  obtain ⟨hcount, hget⟩ := tokenize_short line coords 0 (by omega)
  simp only [Nat.zero_add, Nat.zero_le, true_and, Nat.sub_zero] at hcount hget
  have hfp : ∀ i, (line.map toInt32).getD i (coords i) =
      if i < line.length then toInt32 (line.getD i 0) else coords i := by
    intro i
    by_cases hi : i < line.length
    · simp [hi, List.getD_eq_getElem?_getD, List.getElem?_eq_getElem]
    · simp [hi, List.getD_eq_getElem?_getD, List.getElem?_eq_none (Nat.le_of_not_lt hi)]
  simp only [closedBuffer, closeBoundary, hcount, setAt, hget, firstPair, hfp]
  by_cases h0 : line.length = 0
  · simp only [h0]
    by_cases hj0 : j = 0
    · subst hj0; simp
    · by_cases hj1 : j = 1
      · subst hj1; simp
      · have : ¬ j < 0 := by omega
        simp [hj0, hj1]
  · have h2 : 2 ≤ line.length := by omega
    have e0 : (0 : Nat) < line.length := by omega
    have e1 : (1 : Nat) < line.length := by omega
    have e2 : (1 : Nat) ≠ line.length := by omega
    simp only [e0, e1, e2, if_true, if_false]
    by_cases hj : j < line.length
    · have a1 : j ≠ line.length + 1 := by omega
      have a2 : j ≠ line.length := by omega
      simp [hj, a1, a2]
    · by_cases hj2 : j = line.length
      · subst hj2; simp
      · by_cases hj3 : j = line.length + 1
        · subst hj3; simp
        · simp [hj, hj2, hj3]

theorem coordList_succ_last (coords : Nat → Int) (n : Nat) :
    coordList coords (n + 1) = coordList coords n ++ [coords n] := by
  simp [coordList, List.range_succ]

theorem coordList_closedBuffer (coords : Nat → Int) (line : List Int) (h : Accepted line) :
    coordList (closedBuffer coords line) (line.length + 2) =
      closedList (coords 0, coords 1) line := by
  have hpre : coordList (closedBuffer coords line) line.length = line.map toInt32 := by
    apply List.ext_getElem
    · simp [coordList]
    · intro i h1 h2
      have hi : i < line.length := by simpa [coordList] using h1
      simp [coordList, closedBuffer_apply coords line h, hi, List.getD_eq_getElem?_getD,
        List.getElem?_eq_getElem]
  have hn : closedBuffer coords line line.length = (firstPair (coords 0, coords 1) line).1 := by
    rw [closedBuffer_apply coords line h]
    simp
  have hn1 : closedBuffer coords line (line.length + 1) =
      (firstPair (coords 0, coords 1) line).2 := by
    rw [closedBuffer_apply coords line h]
    simp
  rw [coordList_succ_last, coordList_succ_last, hpre, hn, hn1, closedList, List.append_assoc]
  rfl

theorem closedBuffer_firstPair (coords : Nat → Int) (line : List Int) (h : Accepted line) :
    (closedBuffer coords line 0, closedBuffer coords line 1) =
      firstPair (coords 0, coords 1) line := by
  rw [closedBuffer_apply coords line h, closedBuffer_apply coords line h]
  obtain ⟨heven, _⟩ := h
  by_cases h0 : line.length = 0
  · have hl : line = [] := List.length_eq_zero.mp h0
    subst hl
    simp [firstPair]
  · have e0 : (0 : Nat) < line.length := by omega
    have e1 : (1 : Nat) < line.length := by omega
    simp [firstPair, e0, e1, List.getD_eq_getElem?_getD, List.getElem?_eq_getElem]

theorem readLines_accepted (layerNumber : Int) (line : List Int) (rest : List (List Int))
    (coords : Nat → Int) (lineCount : Nat) (outputFile : Bytes) (h : Accepted line) :
    readLines (amblesOf layerNumber) (line :: rest) coords lineCount outputFile =
      readLines (amblesOf layerNumber) rest (closedBuffer coords line) (lineCount + 1)
        (outputFile ++ polyBlock layerNumber (closedList (coords 0, coords 1) line)) := by
  have hc : (tokenize line coords 0).2 = line.length := by
    rw [tokenize_zero_count]
    have := h.2
    omega
  have h1 : ¬ ((line.length + 2) % 2 ≠ 0) := by
    have := h.1
    omega
  have h2 : ¬ (line.length + 2 > 512) := by
    have := h.2
    omega
  rw [readLines_cons, hc, if_neg h1, if_neg h2, exportPolygon_eq, ← polyBlock_eq,
    coordList_closedBuffer coords line h]

theorem readLines_all_accepted (layerNumber : Int) (lines : List (List Int))
    (coords : Nat → Int) (lineCount : Nat) (outputFile : Bytes)
    (h : ∀ line, line ∈ lines → Accepted line) :
    readLines (amblesOf layerNumber) lines coords lineCount outputFile =
      ⟨Status.success,
        outputFile ++ (blocks layerNumber (coords 0, coords 1) lines).flatten ++
          [0, 4, 7, 0, 0, 4, 4, 0],
        lineCount + lines.length⟩ := by
  induction lines generalizing coords lineCount outputFile with
  | nil =>
    rw [readLines, gdsPost_eq]
    simp only [renderGDS, blocks, List.flatten, List.append_nil, List.length_nil, Nat.add_zero,
      List.take]
  | cons line rest ih =>
    have hl : Accepted line := h line (List.mem_cons_self _ _)
    rw [readLines_accepted layerNumber line rest coords lineCount outputFile hl,
      ih _ _ _ (fun l hl2 => h l (List.mem_cons_of_mem _ hl2)),
      closedBuffer_firstPair coords line hl]
    simp only [blocks, List.flatten, List.append_assoc, List.length_cons]
    congr 1
    omega

theorem blocks_length (layerNumber : Int) (prev : Int × Int) (lines : List (List Int)) :
    (blocks layerNumber prev lines).length = lines.length := by
  induction lines generalizing prev with
  | nil => rfl
  | cons line rest ih => simp [blocks, ih]

theorem mainWith_eq (layerNumber : Int) (coords : Nat → Int) (lines : List (List Int)) :
    mainWith layerNumber coords lines =
      readLines (amblesOf layerNumber) lines coords 0 (gdspreamble.map toUChar) := by
  simp only [mainWith, initGDS, amblesOf, List.nil_append]
  rfl

theorem gdspreamble_length : (gdspreamble.map toUChar).length = 102 := by
  rfl

/-- The lines `Accepted` describes are the lines that pass both tests of `main`. -/
theorem accepted_iff (line : List Int) (coords : Nat → Int) :
    Accepted line ↔
      ((tokenize line coords 0).2 + 2) % 2 = 0 ∧ ¬ ((tokenize line coords 0).2 + 2 > 512) := by
  rw [tokenize_zero_count]
  unfold Accepted
  omega

theorem encodeList_map_toInt32 (c : List Int) : encodeList (c.map toInt32) = encodeList c := by
  induction c with
  | nil => rfl
  | cons v vs ih => simp only [List.map_cons, encodeList, ih, encode32_toInt32]

theorem encodeList_length (c : List Int) : (encodeList c).length = 4 * c.length := by
  induction c with
  | nil => rfl
  | cons v vs ih => simp only [encodeList, List.length_append, encode32_length, ih,
      List.length_cons]; omega

theorem polyBlock_list (layerNumber : Int) (c : List Int) :
    polyBlock layerNumber c =
      (amblesOf layerNumber).polyPre ++ (getPolyForm c.length ++ encodeList c) ++
        [0, 4, 17, 0] := by
  have h := polyBlock_eq layerNumber (ofList c) c.length
  rw [coordList_ofList, xyRecord_eq, encodePoly32_eq_encodeList, coordList_ofList] at h
  exact h

theorem decodePayload_encodeList (c : List Int) :
    decodePayload c.length (encodeList c) = c.map toInt32 := by
  have h := decodePayload_encodePoly32 (ofList c) c.length
  rw [encodePoly32_eq_encodeList, coordList_ofList] at h
  exact h

theorem closedList_of_two_le (prev : Int × Int) (line : List Int) (h : 2 ≤ line.length) :
    closedList prev line = (line ++ line.take 2).map toInt32 := by
  match line, h with
  | a :: b :: rest, _ => simp [closedList, firstPair]

/-! ## The whole stream -/

/-- C6: when every line of the input is accepted (also when there is no line at all), the run
succeeds and the output is exactly the 102 bytes of the library preamble, then one polygon block
per input line in the order of the lines, then the 8 bytes `[0, 4, 7, 0, 0, 4, 4, 0]` of the
postamble; the preamble is written once at the start and the postamble once at the end. -/
theorem stream_layout (layerNumber : Int) (coords : Nat → Int) (lines : List (List Int))
    (h : ∀ line, line ∈ lines → Accepted line) :
    (mainWith layerNumber coords lines).status = Status.success ∧
    (mainWith layerNumber coords lines).outputFile =
      gdspreamble.map toUChar ++ (blocks layerNumber (coords 0, coords 1) lines).flatten ++
        [0, 4, 7, 0, 0, 4, 4, 0] ∧
    (gdspreamble.map toUChar).length = 102 ∧
    (blocks layerNumber (coords 0, coords 1) lines).length = lines.length ∧
    (mainWith layerNumber coords []).outputFile =
      gdspreamble.map toUChar ++ [0, 4, 7, 0, 0, 4, 4, 0] := by
  have h0 : ∀ line, line ∈ ([] : List (List Int)) → Accepted line := fun _ hl => by cases hl
  rw [mainWith_eq, mainWith_eq, readLines_all_accepted layerNumber lines coords 0 _ h,
    readLines_all_accepted layerNumber [] coords 0 _ h0]
  exact ⟨rfl, rfl, gdspreamble_length, blocks_length _ _ _, rfl⟩

theorem stream_layout_witness :
    (mainWith 0 (fun _ => 0) [[0, 0, 10, 0, 10, 10], [1, 2, 3, 4]]).outputFile =
      gdspreamble.map toUChar ++
        (blocks 0 (0, 0) [[0, 0, 10, 0, 10, 10], [1, 2, 3, 4]]).flatten ++
        [0, 4, 7, 0, 0, 4, 4, 0] :=
  (stream_layout 0 (fun _ => 0) [[0, 0, 10, 0, 10, 10], [1, 2, 3, 4]] (by decide)).2.1

/-- C7: for every line with an even number `n` of tokens, `2 ≤ n ≤ 510`, the tool writes one
polygon block whose XY record holds `n + 2` coordinates, the `n` integers of the line in order
followed by a copy of the first two, and is `4 + 4 * (n + 2)` bytes long; for the line
`0,0,10,0,10,10` the XY record holds the 8 coordinates `0,0,10,0,10,10,0,0` and is 36 bytes
long with header `[0, 36, 16, 3]`. -/
theorem closing_and_framing :
    (∀ (layerNumber : Int) (line : List Int) (rest : List (List Int)) (coords : Nat → Int)
        (lineCount : Nat) (outputFile : Bytes),
      line.length % 2 = 0 → 2 ≤ line.length → line.length ≤ 510 →
        readLines (amblesOf layerNumber) (line :: rest) coords lineCount outputFile =
          readLines (amblesOf layerNumber) rest (closedBuffer coords line) (lineCount + 1)
            (outputFile ++ ((amblesOf layerNumber).polyPre ++
              (getPolyForm (line.length + 2) ++ encodeList (line ++ line.take 2)) ++
              [0, 4, 17, 0])) ∧
        (getPolyForm (line.length + 2) ++ encodeList (line ++ line.take 2)).length =
          4 + 4 * (line.length + 2) ∧
        decodePayload (line.length + 2) (encodeList (line ++ line.take 2)) =
          (line ++ line.take 2).map toInt32) ∧
    (∀ coords : Nat → Int,
      (main coords [[0, 0, 10, 0, 10, 10]]).outputFile =
        gdspreamble.map toUChar ++
          ([0, 4, 8, 0, 0, 6, 13, 2, 0, 0, 0, 6, 14, 2, 0, 0] ++
            ([0, 36, 16, 3] ++
              [0, 0, 0, 0, 0, 0, 0, 0, 0, 0, 0, 10, 0, 0, 0, 0,
               0, 0, 0, 10, 0, 0, 0, 10, 0, 0, 0, 0, 0, 0, 0, 0]) ++
            [0, 4, 17, 0]) ++
          [0, 4, 7, 0, 0, 4, 4, 0]) ∧
    decodePayload 8
        [0, 0, 0, 0, 0, 0, 0, 0, 0, 0, 0, 10, 0, 0, 0, 0,
         0, 0, 0, 10, 0, 0, 0, 10, 0, 0, 0, 0, 0, 0, 0, 0] =
      [0, 0, 10, 0, 10, 10, 0, 0] := by
  refine ⟨?_, ?_, by decide⟩
  · intro layerNumber line rest coords lineCount outputFile heven h2 h510
    have hacc : Accepted line := ⟨heven, by omega⟩
    have hlen : (line ++ line.take 2).length = line.length + 2 := by
      rw [List.length_append, List.length_take]; omega
    refine ⟨?_, ?_, ?_⟩
    · rw [readLines_accepted layerNumber line rest coords lineCount outputFile hacc,
        closedList_of_two_le _ line h2, polyBlock_list, encodeList_map_toInt32,
        List.length_map, hlen]
    · rw [List.length_append, getPolyForm_length, encodeList_length, hlen]
    · rw [← hlen, decodePayload_encodeList]
  · intro coords
    have hacc : Accepted [0, 0, 10, 0, 10, 10] := by decide
    have hnil : ∀ line, line ∈ ([] : List (List Int)) → Accepted line := fun _ hl => by cases hl
    show (mainWith 0 coords [[0, 0, 10, 0, 10, 10]]).outputFile = _
    rw [mainWith_eq, readLines_accepted 0 _ _ coords 0 _ hacc,
      readLines_all_accepted 0 [] _ _ _ hnil, closedList_of_two_le _ _ (by decide),
      polyBlock_list]
    simp only [blocks, List.flatten, List.append_nil]
    decide

theorem closing_and_framing_witness :
    decodePayload (([1, -2, 3, 4] : List Int).length + 2)
        (encodeList ([1, -2, 3, 4] ++ ([1, -2, 3, 4] : List Int).take 2)) =
      ([1, -2, 3, 4] ++ ([1, -2, 3, 4] : List Int).take 2).map toInt32 :=
  (closing_and_framing.1 0 [1, -2, 3, 4] [] (fun _ => 0) 0 [] (by decide) (by decide)
    (by decide)).2.2

/-! ## Rejected lines -/

/-- C8: for every line with an odd number of integers, at any point of the run, processing
stops with the odd-coordinate-count error for that line and the output file holds the same bytes
after the line as before it. -/
theorem odd_count_rejected (am : Ambles) (line : List Int) (rest : List (List Int))
    (coords : Nat → Int) (lineCount : Nat) (outputFile : Bytes) (h : line.length % 2 = 1) :
    (readLines am (line :: rest) coords lineCount outputFile).status =
      Status.oddCoordinateCount (lineCount + 1) ∧
    (readLines am (line :: rest) coords lineCount outputFile).outputFile = outputFile := by
  rw [readLines_odd am line rest coords lineCount outputFile h]
  exact ⟨rfl, rfl⟩

theorem odd_count_rejected_witness :
    (readLines (amblesOf 0) [[1, 2, 3]] (fun _ => 0) 0 [7]).status =
      Status.oddCoordinateCount 1 ∧
    (readLines (amblesOf 0) [[1, 2, 3]] (fun _ => 0) 0 [7]).outputFile = [7] :=
  odd_count_rejected (amblesOf 0) [1, 2, 3] [] (fun _ => 0) 0 [7] (by decide)

/-- C9, counterexample: a line of 513 tokens and a line of 514 tokens both hold more than 512
integers once closed, and both runs end at the odd-coordinate-count message, not at the
too-many-vertices one. -/
theorem overcap_lines_reported_odd :
    512 < (List.replicate 513 (0 : Int)).length + 2 ∧
    (main (fun _ => 0) [List.replicate 513 0]).status = Status.oddCoordinateCount 1 ∧
    (main (fun _ => 0) [List.replicate 513 0]).status ≠ Status.tooManyVertices 1 ∧
    512 < (List.replicate 514 (0 : Int)).length + 2 ∧
    (main (fun _ => 0) [List.replicate 514 0]).status = Status.oddCoordinateCount 1 ∧
    (main (fun _ => 0) [List.replicate 514 0]).status ≠ Status.tooManyVertices 1 := by
  have h513 : (main (fun _ => 0) [List.replicate 513 0]).status = Status.oddCoordinateCount 1 := by
    show (mainWith 0 _ _).status = _
    rw [mainWith_eq, readLines_long _ _ _ _ _ _ (by rw [List.length_replicate]; omega)]
  have h514 : (main (fun _ => 0) [List.replicate 514 0]).status = Status.oddCoordinateCount 1 := by
    show (mainWith 0 _ _).status = _
    rw [mainWith_eq, readLines_long _ _ _ _ _ _ (by rw [List.length_replicate]; omega)]
  refine ⟨by rw [List.length_replicate]; omega, h513, ?_, by rw [List.length_replicate]; omega,
    h514, ?_⟩
  · rw [h513]; exact fun h => Status.noConfusion h
  · rw [h514]; exact fun h => Status.noConfusion h

/-- C9, amended: a line of 512 integers, 514 once closed, fails at that line with the
too-many-vertices error and nothing is written for it; a line with an odd number of integers
fails with the odd-coordinate-count error instead, whatever its length; and a line with an even
count of at most 512 integers after closing is not rejected: its polygon is exported and the
loop goes on to the next line. -/
theorem vertex_cap (am : Ambles) (line : List Int) (rest : List (List Int))
    (coords : Nat → Int) (lineCount : Nat) (outputFile : Bytes) :
    (line.length = 512 →
      readLines am (line :: rest) coords lineCount outputFile =
        ⟨Status.tooManyVertices (lineCount + 1), outputFile, lineCount + 1⟩) ∧
    (line.length % 2 = 1 →
      readLines am (line :: rest) coords lineCount outputFile =
        ⟨Status.oddCoordinateCount (lineCount + 1), outputFile, lineCount + 1⟩) ∧
    (line.length % 2 = 0 → line.length + 2 ≤ 512 →
      readLines am (line :: rest) coords lineCount outputFile =
        readLines am rest (closedBuffer coords line) (lineCount + 1)
          (exportPolygon (closedBuffer coords line) am.polyPre am.polyPost outputFile
            (line.length + 2))) := by
  refine ⟨readLines_512 am line rest coords lineCount outputFile,
    readLines_odd am line rest coords lineCount outputFile, fun heven hle => ?_⟩
  have hc : (tokenize line coords 0).2 = line.length := by
    rw [tokenize_zero_count]; omega
  have h1 : ¬ ((line.length + 2) % 2 ≠ 0) := by omega
  have h2 : ¬ (line.length + 2 > 512) := by omega
  rw [readLines_cons, hc, if_neg h1, if_neg h2]

theorem vertex_cap_witness :
    (readLines (amblesOf 0) [List.replicate 512 0] (fun _ => 0) 0 [] =
      ⟨Status.tooManyVertices 1, [], 1⟩) ∧
    (readLines (amblesOf 0) [[1, 2, 3]] (fun _ => 0) 0 [] =
      ⟨Status.oddCoordinateCount 1, [], 1⟩) ∧
    (readLines (amblesOf 0) [[1, 2, 3, 4]] (fun _ => 0) 0 [] =
      readLines (amblesOf 0) [] (closedBuffer (fun _ => 0) [1, 2, 3, 4]) 1
        (exportPolygon (closedBuffer (fun _ => 0) [1, 2, 3, 4]) (amblesOf 0).polyPre
          (amblesOf 0).polyPost [] 6)) :=
  ⟨(vertex_cap (amblesOf 0) (List.replicate 512 0) [] (fun _ => 0) 0 []).1
      (List.length_replicate 512 0),
    (vertex_cap (amblesOf 0) [1, 2, 3] [] (fun _ => 0) 0 []).2.1 (by decide),
    (vertex_cap (amblesOf 0) [1, 2, 3, 4] [] (fun _ => 0) 0 []).2.2 (by decide) (by decide)⟩

theorem exportPolygon_length (layerNumber : Int) (coords : Nat → Int) (outputFile : Bytes)
    (n : Nat) :
    (exportPolygon coords (amblesOf layerNumber).polyPre (amblesOf layerNumber).polyPost
      outputFile n).length = outputFile.length + (24 + 4 * n) := by
  rw [exportPolygon_eq, polyPre_eq]
  simp only [List.length_append, xyRecord_length, List.length_cons, List.length_nil]
  omega

/-- C10, counterexample: at 16383 coordinates the byte count is 65536; `getPolyForm` returns a
header whose length bytes are 0, 0 and `exportPolygon` appends the whole block. -/
theorem length_field_overflow_not_error :
    65535 < 4 + 4 * 16383 ∧
    getPolyForm 16383 = [0, 0, 16, 3] ∧
    (exportPolygon (fun _ => 0) (amblesOf 0).polyPre (amblesOf 0).polyPost [] 16383).length =
      ([] : Bytes).length + (24 + 4 * 16383) := by
  exact ⟨by decide, by decide, exportPolygon_length 0 (fun _ => 0) [] 16383⟩

/-- C10, amended: `getPolyForm` and `exportPolygon` have no error result. For every coordinate
count `N` with `4 + 4 * N > 65535` (and within the range of `int`) `getPolyForm` returns four
header bytes whose two length bytes hold the byte count reduced modulo `2^16`, and
`exportPolygon` appends the whole block of `24 + 4 * N` bytes. -/
theorem length_field_wraps (layerNumber : Int) (coords : Nat → Int) (outputFile : Bytes)
    (N : Nat) (h : 65535 < 4 + 4 * N) (hint : 4 + 4 * N < 2147483648) :
    65535 < 4 + 4 * N ∧ 4 + 4 * N < 2147483648 ∧
    (getPolyForm N).length = 4 ∧
    decode16 (getPolyForm N) = (4 + 4 * N) % 65536 ∧
    exportPolygon coords (amblesOf layerNumber).polyPre (amblesOf layerNumber).polyPost
        outputFile N =
      outputFile ++ ((amblesOf layerNumber).polyPre ++
        (getPolyForm N ++ encodePoly32 coords N) ++ [0, 4, 17, 0]) ∧
    ((amblesOf layerNumber).polyPre ++ (getPolyForm N ++ encodePoly32 coords N) ++
      [0, 4, 17, 0]).length = 24 + 4 * N := by
  refine ⟨h, hint, getPolyForm_length N, ?_, ?_, ?_⟩
  · rw [getPolyForm_eq]
    simp only [decode16]
    omega
  · rw [exportPolygon_eq, xyRecord_eq]
  · rw [polyPre_eq]
    simp only [List.length_append, getPolyForm_length, encodePoly32_length, List.length_cons,
      List.length_nil]
    omega

theorem length_field_wraps_witness :
    decode16 (getPolyForm 20000) = (4 + 4 * 20000) % 65536 :=
  (length_field_wraps 0 (fun _ => 0) [] 20000 (by decide) (by decide)).2.2.2.1

/-! ## The layer byte -/

/-- C11, counterexample: for the layer 256 the two data bytes of the layer record are 0, 0, which
decode to 0 and not to 256. -/
theorem layer_256_not_carried :
    (amblesOf 256).polyPre = [0, 4, 8, 0, 0, 6, 13, 2, 0, 0, 0, 6, 14, 2, 0, 0] ∧
    decode16 (((amblesOf 256).polyPre.drop 8).take 2) = 0 ∧
    decode16 (((amblesOf 256).polyPre.drop 8).take 2) ≠ 256 := by
  decide

/-- C11, amended: for every layer value in `0..65535` the 16-byte block built by `initGDS` is
`[0,4,8,0, 0,6,13,2, 0,b9, 0,6,14,2, 0,0]` with `b9` the layer reduced modulo 256 and byte 8
equal to 0; for the layers `0..255` the two data bytes of the layer record decode big-endian to
the layer, with the layer itself at offset 9. The data bytes of the datatype record are 0, 0. -/
theorem layer_byte (layer : Nat) (h : layer ≤ 65535) :
    (amblesOf (layer : Int)).polyPre =
      [0, 4, 8, 0, 0, 6, 13, 2, 0, layer % 256, 0, 6, 14, 2, 0, 0] ∧
    (layer ≤ 255 →
      (amblesOf (layer : Int)).polyPre =
        [0, 4, 8, 0, 0, 6, 13, 2, 0, layer, 0, 6, 14, 2, 0, 0] ∧
      decode16 (((amblesOf (layer : Int)).polyPre.drop 8).take 2) = layer) ∧
    ((amblesOf (layer : Int)).polyPre.drop 14) = [0, 0] := by
  have hb : toUChar (layer : Int) = layer % 256 := by
    unfold toUChar
    omega
  have hp := polyPre_eq (layer : Int)
  rw [hb] at hp
  refine ⟨hp, fun h255 => ?_, by rw [hp]; rfl⟩
  have hm : layer % 256 = layer := Nat.mod_eq_of_lt (by omega)
  rw [hp, hm]
  refine ⟨rfl, ?_⟩
  simp [decode16]

theorem layer_byte_witness :
    (amblesOf ((7 : Nat) : Int)).polyPre =
        [0, 4, 8, 0, 0, 6, 13, 2, 0, 7, 0, 6, 14, 2, 0, 0] ∧
      decode16 (((amblesOf ((7 : Nat) : Int)).polyPre.drop 8).take 2) = 7 :=
  (layer_byte 7 (by decide)).2.1 (by decide)

/-! ## The closing step -/

theorem closeBoundary_apply (coords : Nat → Int) (n j : Nat) :
    (closeBoundary coords n).1 j =
      if j = n + 1 then (if n = 1 then coords 0 else coords 1)
      else if j = n then coords 0 else coords j := by
  simp only [closeBoundary, setAt]
  by_cases h1 : j = n + 1
  · simp only [h1, if_true]
    by_cases hn : n = 1
    · simp [hn]
    · have : ¬ (1 = n) := fun h => hn h.symm
      simp [hn, this]
  · simp [h1]

theorem coordList_closeBoundary (coords : Nat → Int) (n : Nat) (h : 2 ≤ n) :
    coordList (closeBoundary coords n).1 (n + 2) = coordList coords n ++ [coords 0, coords 1] := by
  have hpre : coordList (closeBoundary coords n).1 n = coordList coords n := by
    apply coordList_congr
    intro k hk
    rw [closeBoundary_apply]
    have h1 : k ≠ n + 1 := by omega
    have h2 : k ≠ n := by omega
    simp [h1, h2]
  have hn : (closeBoundary coords n).1 n = coords 0 := by
    rw [closeBoundary_apply]
    simp
  have hn1 : (closeBoundary coords n).1 (n + 1) = coords 1 := by
    rw [closeBoundary_apply]
    have : n ≠ 1 := by omega
    simp [this]
  rw [coordList_succ_last, coordList_succ_last, hpre, hn, hn1, List.append_assoc]
  rfl

/-- C12: for every coordinate list of length `n ≥ 2` held in the buffer, the closing step gives
a list of length `n + 2` whose first `n` entries are the list unchanged and whose last two
entries are its first two, so the closed list starts and ends with the same pair; closing the
closed list once more appends the pair again and gives length `n + 4`. -/
theorem closing_appends (coords : Nat → Int) (n : Nat) (h : 2 ≤ n) :
    (closeBoundary coords n).2 = n + 2 ∧
    coordList (closeBoundary coords n).1 (n + 2) = coordList coords n ++ [coords 0, coords 1] ∧
    (coordList (closeBoundary coords n).1 (n + 2)).take n = coordList coords n ∧
    (coordList (closeBoundary coords n).1 (n + 2)).drop n = [coords 0, coords 1] ∧
    (coordList (closeBoundary coords n).1 (n + 2)).take 2 =
      (coordList (closeBoundary coords n).1 (n + 2)).drop n ∧
    (closeBoundary (closeBoundary coords n).1 (n + 2)).2 = n + 4 ∧
    coordList (closeBoundary (closeBoundary coords n).1 (n + 2)).1 (n + 4) =
      coordList coords n ++ [coords 0, coords 1, coords 0, coords 1] := by
  have hlen : (coordList coords n).length = n := coordList_length coords n
  have h1 := coordList_closeBoundary coords n h
  have hdrop : (coordList (closeBoundary coords n).1 (n + 2)).drop n = [coords 0, coords 1] := by
    rw [h1]
    conv => lhs; arg 1; rw [← hlen]
    exact List.drop_left _ _
  have htake2 : (coordList (closeBoundary coords n).1 (n + 2)).take 2 = [coords 0, coords 1] := by
    have h0 : (closeBoundary coords n).1 0 = coords 0 := by
      rw [closeBoundary_apply]
      have a : (0 : Nat) ≠ n + 1 := by omega
      have b : (0 : Nat) ≠ n := by omega
      simp [a, b]
    have h1' : (closeBoundary coords n).1 1 = coords 1 := by
      rw [closeBoundary_apply]
      have a : (1 : Nat) ≠ n + 1 := by omega
      have b : (1 : Nat) ≠ n := by omega
      simp [a, b]
    rw [coordList_succ, coordList_succ]
    simp [h0, h1']
  have h2 := coordList_closeBoundary (closeBoundary coords n).1 (n + 2) (by omega)
  have e0 : (closeBoundary coords n).1 0 = coords 0 := by
    rw [closeBoundary_apply]
    have a : (0 : Nat) ≠ n + 1 := by omega
    have b : (0 : Nat) ≠ n := by omega
    simp [a, b]
  have e1 : (closeBoundary coords n).1 1 = coords 1 := by
    rw [closeBoundary_apply]
    have a : (1 : Nat) ≠ n + 1 := by omega
    have b : (1 : Nat) ≠ n := by omega
    simp [a, b]
  refine ⟨rfl, h1, ?_, hdrop, by rw [htake2, hdrop], rfl, ?_⟩
  · rw [h1]
    conv => lhs; arg 1; rw [← hlen]
    exact List.take_left _ _
  · have h3 : n + 2 + 2 = n + 4 := by omega
    rw [h3, h1, e0, e1] at h2
    rw [h2]
    simp

theorem closing_appends_witness :
    coordList (closeBoundary (ofList [0, 0, 10, 0, 0, 0]) 6).1 (6 + 2) =
      coordList (ofList [0, 0, 10, 0, 0, 0]) 6 ++
        [ofList [0, 0, 10, 0, 0, 0] 0, ofList [0, 0, 10, 0, 0, 0] 1] :=
  (closing_appends (ofList [0, 0, 10, 0, 0, 0]) 6 (by decide)).2.1

/-! ## Stopping at the first rejected line -/

theorem readLines_rejected (am : Ambles) (line : List Int) (rest : List (List Int))
    (coords : Nat → Int) (lineCount : Nat) (outputFile : Bytes) (h : ¬ Accepted line) :
    readLines am (line :: rest) coords lineCount outputFile =
      ⟨rejection line (lineCount + 1), outputFile, lineCount + 1⟩ := by
  unfold Accepted at h
  unfold rejection
  by_cases hodd : line.length % 2 = 1
  · have h512 : line.length ≠ 512 := by omega
    rw [readLines_odd am line rest coords lineCount outputFile hodd, if_neg h512]
  · by_cases h512 : line.length = 512
    · rw [readLines_512 am line rest coords lineCount outputFile h512, if_pos h512]
    · rw [readLines_long am line rest coords lineCount outputFile (by omega), if_neg h512]

theorem readLines_good_then (layerNumber : Int) (good tail : List (List Int))
    (coords : Nat → Int) (lineCount : Nat) (outputFile : Bytes)
    (h : ∀ line, line ∈ good → Accepted line) :
    readLines (amblesOf layerNumber) (good ++ tail) coords lineCount outputFile =
      readLines (amblesOf layerNumber) tail (bufferAfter coords good) (lineCount + good.length)
        (outputFile ++ (blocks layerNumber (coords 0, coords 1) good).flatten) := by
  induction good generalizing coords lineCount outputFile with
  | nil =>
    simp only [List.nil_append, bufferAfter, blocks, List.flatten, List.append_nil,
      List.length_nil, Nat.add_zero]
  | cons line rest ih =>
    have hl : Accepted line := h line (List.mem_cons_self _ _)
    rw [List.cons_append, readLines_accepted layerNumber line _ coords lineCount outputFile hl,
      ih _ _ _ (fun l hl2 => h l (List.mem_cons_of_mem _ hl2)),
      closedBuffer_firstPair coords line hl]
    simp only [blocks, List.flatten, List.append_assoc, List.length_cons, bufferAfter]
    congr 1
    omega

/-- C13: when the first `k` lines are accepted and line `k + 1` is rejected (odd count or too
many vertices), the run stops at line `k + 1` with an error that carries the line number
`k + 1`, whatever lines follow, and the output file holds exactly the preamble followed by the
polygon blocks of lines `1..k` in order, with no postamble; two valid lines followed by a line
with an odd count give two polygon blocks and an error for line 3. -/
theorem abort_on_first_bad_line :
    (∀ (layerNumber : Int) (coords : Nat → Int) (good : List (List Int)) (bad : List Int)
        (rest : List (List Int)),
      (∀ line, line ∈ good → Accepted line) → ¬ Accepted bad →
        mainWith layerNumber coords (good ++ bad :: rest) =
          ⟨rejection bad (good.length + 1),
            gdspreamble.map toUChar ++ (blocks layerNumber (coords 0, coords 1) good).flatten,
            good.length + 1⟩ ∧
        (rejection bad (good.length + 1) = Status.oddCoordinateCount (good.length + 1) ∨
          rejection bad (good.length + 1) = Status.tooManyVertices (good.length + 1)) ∧
        (blocks layerNumber (coords 0, coords 1) good).length = good.length) ∧
    (∀ (coords : Nat → Int) (rest : List (List Int)),
      main coords ([0, 0, 10, 0, 10, 10] :: [1, 2, 3, 4] :: [5, 6, 7] :: rest) =
        ⟨Status.oddCoordinateCount 3,
          gdspreamble.map toUChar ++
            (polyBlock 0 [0, 0, 10, 0, 10, 10, 0, 0] ++ polyBlock 0 [1, 2, 3, 4, 1, 2]),
          3⟩) := by
  refine ⟨?_, ?_⟩
  · intro layerNumber coords good bad rest hgood hbad
    refine ⟨?_, ?_, blocks_length _ _ _⟩
    · rw [mainWith_eq, readLines_good_then layerNumber good _ coords 0 _ hgood,
        readLines_rejected _ bad rest _ _ _ hbad, Nat.zero_add]
    · unfold rejection
      by_cases h512 : bad.length = 512
      · right; rw [if_pos h512]
      · left; rw [if_neg h512]
  · intro coords rest
    have hgood : ∀ line, line ∈ [[0, 0, 10, 0, 10, 10], [1, 2, 3, 4]] → Accepted line := by
      decide
    have hbad : ¬ Accepted [5, 6, 7] := by decide
    show mainWith 0 coords ([[0, 0, 10, 0, 10, 10], [1, 2, 3, 4]] ++ [5, 6, 7] :: rest) = _
    rw [mainWith_eq, readLines_good_then 0 _ _ coords 0 _ hgood,
      readLines_rejected _ _ rest _ _ _ hbad]
    simp only [blocks, List.flatten, List.append_nil]
    rfl

theorem abort_on_first_bad_line_witness :
    mainWith 0 (fun _ => 0) ([[1, 2, 3, 4]] ++ [9] :: [[1, 2]]) =
      ⟨rejection [9] (([[1, 2, 3, 4]] : List (List Int)).length + 1),
        gdspreamble.map toUChar ++ (blocks 0 (0, 0) [[1, 2, 3, 4]]).flatten,
        ([[1, 2, 3, 4]] : List (List Int)).length + 1⟩ :=
  (abort_on_first_bad_line.1 0 (fun _ => 0) [[1, 2, 3, 4]] [9] [[1, 2]] (by decide)
    (by decide)).1

/-! ## The 16-bit length field -/

theorem decode16_getPolyForm (n : Nat) : decode16 (getPolyForm n) = (4 + 4 * n) % 65536 := by
  rw [getPolyForm_eq]
  simp only [decode16]
  omega

/-- C14, counterexample: at 16383 coordinates the byte count is 65536, above 65535, and the two
header bytes of `getPolyForm` decode to 0. -/
theorem record_of_16383_does_not_fit :
    4 + 4 * 16383 = 65536 ∧ ¬ (4 + 4 * 16383 ≤ 65535) ∧
    decode16 (getPolyForm 16383) = 0 ∧
    decode16 (getPolyForm 16383) ≠ 4 + 4 * 16383 := by
  decide

/-- C14, amended: the byte count `4 + 4 * N` of the XY record fits the 16-bit length field, so
that the two header bytes written by `getPolyForm` decode back to `4 + 4 * N`, exactly for the
coordinate counts `N ≤ 16382`: a single record can hold up to 16382 four-byte coordinates. -/
theorem wire_format_cap (N : Nat) :
    (4 + 4 * N ≤ 65535 ↔ N ≤ 16382) ∧
    (decode16 (getPolyForm N) = 4 + 4 * N ↔ N ≤ 16382) ∧
    decode16 (getPolyForm 16382) = 65532 := by
  refine ⟨by omega, ?_, by decide⟩
  rw [decode16_getPolyForm]
  omega

/-! ## What the output depends on -/

theorem exportPolygon_extends (coords : Nat → Int) (polyPre polyPost outputFile : Bytes)
    (n : Nat) :
    ∃ suffix, exportPolygon coords polyPre polyPost outputFile n = outputFile ++ suffix :=
  ⟨polyPre.take 16 ++ (getPolyForm n).take 4 ++ (encodePoly32 coords n).take (n * 4) ++
    polyPost.take 4, by simp only [exportPolygon, List.append_assoc]⟩

theorem readLines_extends (am : Ambles) (lines : List (List Int)) (coords : Nat → Int)
    (lineCount : Nat) (outputFile : Bytes) :
    ∃ suffix, (readLines am lines coords lineCount outputFile).outputFile =
      outputFile ++ suffix := by
  induction lines generalizing coords lineCount outputFile with
  | nil => exact ⟨am.gdsPost.take 8, rfl⟩
  | cons line rest ih =>
    rw [readLines_cons]
    by_cases h1 : ((tokenize line coords 0).2 + 2) % 2 ≠ 0
    · rw [if_pos h1]
      exact ⟨[], (List.append_nil _).symm⟩
    · rw [if_neg h1]
      by_cases h2 : (tokenize line coords 0).2 + 2 > 512
      · rw [if_pos h2]
        exact ⟨[], (List.append_nil _).symm⟩
      · rw [if_neg h2]
        obtain ⟨s1, hs1⟩ := exportPolygon_extends (closedBuffer coords line) am.polyPre
          am.polyPost outputFile ((tokenize line coords 0).2 + 2)
        obtain ⟨s2, hs2⟩ := ih (closedBuffer coords line) (lineCount + 1)
          (exportPolygon (closedBuffer coords line) am.polyPre am.polyPost outputFile
            ((tokenize line coords 0).2 + 2))
        exact ⟨s1 ++ s2, by rw [hs2, hs1, List.append_assoc]⟩

theorem mainWith_take_102 (layerNumber : Int) (coords : Nat → Int) (lines : List (List Int)) :
    (mainWith layerNumber coords lines).outputFile.take 102 = gdspreamble.map toUChar := by
  obtain ⟨s, hs⟩ := readLines_extends (amblesOf layerNumber) lines coords 0
    (gdspreamble.map toUChar)
  rw [mainWith_eq, hs]
  have h : (gdspreamble.map toUChar).length = 102 := gdspreamble_length
  rw [← h]
  exact List.take_left _ _

theorem readLines_buffer_pair (layerNumber : Int) (lines : List (List Int))
    (c1 c2 : Nat → Int) (lineCount : Nat) (outputFile : Bytes)
    (h0 : c1 0 = c2 0) (h1 : c1 1 = c2 1) :
    readLines (amblesOf layerNumber) lines c1 lineCount outputFile =
      readLines (amblesOf layerNumber) lines c2 lineCount outputFile := by
  induction lines generalizing c1 c2 lineCount outputFile with
  | nil => rfl
  | cons line rest ih =>
    by_cases hacc : Accepted line
    · have e1 := closedBuffer_firstPair c1 line hacc
      have e2 := closedBuffer_firstPair c2 line hacc
      rw [h0, h1, ← e2] at e1
      rw [readLines_accepted layerNumber line rest c1 lineCount outputFile hacc,
        readLines_accepted layerNumber line rest c2 lineCount outputFile hacc, h0, h1]
      exact ih _ _ _ _ (congrArg Prod.fst e1) (congrArg Prod.snd e1)
    · rw [readLines_rejected _ line rest c1 _ _ hacc, readLines_rejected _ line rest c2 _ _ hacc]

/-- The run does not depend on what the buffer held before it when the first line has a
token. -/
theorem mainWith_buffer_independent (layerNumber : Int) (c1 c2 : Nat → Int) (line : List Int)
    (rest : List (List Int)) (h : line ≠ []) :
    mainWith layerNumber c1 (line :: rest) = mainWith layerNumber c2 (line :: rest) := by
  rw [mainWith_eq, mainWith_eq]
  by_cases hacc : Accepted line
  · have h2 : 2 ≤ line.length := by
      have := hacc.1
      have : line.length ≠ 0 := fun h0 => h (List.length_eq_zero.mp h0)
      omega
    have e1 := closedBuffer_firstPair c1 line hacc
    have e2 := closedBuffer_firstPair c2 line hacc
    have hfp : firstPair (c1 0, c1 1) line = firstPair (c2 0, c2 1) line := by
      match line, h2 with
      | a :: b :: tl, _ => simp [firstPair]
    have hcl : closedList (c1 0, c1 1) line = closedList (c2 0, c2 1) line := by
      rw [closedList_of_two_le _ line h2, closedList_of_two_le _ line h2]
    rw [hfp, ← e2] at e1
    rw [readLines_accepted layerNumber line rest c1 0 _ hacc,
      readLines_accepted layerNumber line rest c2 0 _ hacc, hcl]
    exact readLines_buffer_pair layerNumber rest _ _ _ _ (congrArg Prod.fst e1)
      (congrArg Prod.snd e1)
  · rw [readLines_rejected _ line rest c1 _ _ hacc, readLines_rejected _ line rest c2 _ _ hacc]

/-- C15, at an input whose only line has no token: the first 102 bytes of every run are the
fixed bytes of the preamble table, whatever the layer, the buffer and the lines; but on the line
without a token the run exports the two values the uninitialised buffer holds at indices 0 and
1, so two runs on this same input differ in their output. -/
theorem preamble_fixed_output_reads_buffer :
    (∀ (layerNumber : Int) (coords : Nat → Int) (lines : List (List Int)),
      (mainWith layerNumber coords lines).outputFile.take 102 = gdspreamble.map toUChar) ∧
    gdspreamble.map toUChar =
      [0, 6, 0, 2, 0, 7, 0, 28, 1, 2, 230, 43, 0, 1, 0, 1, 0, 0, 0, 0, 0, 0,
       230, 43, 0, 1, 0, 1, 0, 0, 0, 0, 0, 0, 0, 10, 2, 6, 110, 111, 110, 97,
       109, 101, 0, 20, 3, 5, 61, 104, 219, 139, 172, 113, 12, 180, 56, 109,
       243, 127, 103, 94, 246, 236, 0, 28, 5, 2, 0, 114, 0, 4, 0, 17, 0, 13,
       0, 22, 0, 56, 0, 114, 0, 4, 0, 17, 0, 13, 0, 22, 0, 56,
       0, 10, 6, 6, 110, 111, 110, 97, 109, 101] ∧
    (main (fun _ => 0) [[]]).status = Status.success ∧
    (main (fun _ => 1) [[]]).status = Status.success ∧
    (main (fun _ => 0) [[]]).outputFile.drop 102 =
      [0, 4, 8, 0, 0, 6, 13, 2, 0, 0, 0, 6, 14, 2, 0, 0, 0, 12, 16, 3,
       0, 0, 0, 0, 0, 0, 0, 0, 0, 4, 17, 0, 0, 4, 7, 0, 0, 4, 4, 0] ∧
    (main (fun _ => 1) [[]]).outputFile.drop 102 =
      [0, 4, 8, 0, 0, 6, 13, 2, 0, 0, 0, 6, 14, 2, 0, 0, 0, 12, 16, 3,
       0, 0, 0, 1, 0, 0, 0, 1, 0, 4, 17, 0, 0, 4, 7, 0, 0, 4, 4, 0] ∧
    (main (fun _ => 0) [[]]).outputFile ≠ (main (fun _ => 1) [[]]).outputFile := by
  refine ⟨mainWith_take_102, by decide, by decide, by decide, by decide, by decide, by decide⟩

/-! ## Record framing of the stream -/

theorem decode16_append (r rest : Bytes) (h : 2 ≤ r.length) :
    decode16 (r ++ rest) = decode16 r := by
  match r, h with
  | a :: b :: tl, _ => rfl

theorem walkRecords_record (fuel : Nat) (r rest : Bytes) (h : WellFramed r) :
    walkRecords (fuel + 1) (r ++ rest) =
      (walkRecords fuel rest).map (fun ls => r.length :: ls) := by
  obtain ⟨hd, h4, he, hmax⟩ := h
  have hd2 : decode16 (r ++ rest) = r.length := by
    rw [decode16_append r rest (by omega), hd]
  cases r with
  | nil => simp at h4
  | cons a tl =>
    have hd3 : decode16 (a :: (tl ++ rest)) = (a :: tl).length := hd2
    have hcond : 4 ≤ decode16 (a :: (tl ++ rest)) ∧ decode16 (a :: (tl ++ rest)) % 2 = 0 ∧
        decode16 (a :: (tl ++ rest)) ≤ 65535 ∧
        decode16 (a :: (tl ++ rest)) ≤ (a :: (tl ++ rest)).length := by
      rw [hd3]
      refine ⟨h4, he, hmax, ?_⟩
      simp only [List.length_cons, List.length_append]
      omega
    show walkRecords (fuel + 1) (a :: (tl ++ rest)) = _
    rw [walkRecords, if_pos hcond, hd3]
    have hdrop : List.drop (a :: tl).length (a :: (tl ++ rest)) = rest :=
      List.drop_left (a :: tl) rest
    rw [hdrop]

theorem walkRecords_flatten (recs : List Bytes) (fuel : Nat)
    (h : ∀ r, r ∈ recs → WellFramed r) (hf : recs.length < fuel) :
    walkRecords fuel recs.flatten = some (recs.map List.length) := by
  induction recs generalizing fuel with
  | nil =>
    match fuel, hf with
    | f + 1, _ => rfl
  | cons r rs ih =>
    match fuel, hf with
    | f + 1, hf =>
      have hlen : rs.length < f := by
        simp only [List.length_cons] at hf
        omega
      show walkRecords (f + 1) (r ++ rs.flatten) = _
      rw [walkRecords_record f r rs.flatten (h r (List.mem_cons_self _ _)),
        ih f (fun x hx => h x (List.mem_cons_of_mem _ hx)) hlen]
      rfl

theorem length_le_flatten (recs : List Bytes) (h : ∀ r, r ∈ recs → WellFramed r) :
    recs.length ≤ recs.flatten.length := by
  induction recs with
  | nil => exact Nat.le_refl _
  | cons r rs ih =>
    have h1 := (h r (List.mem_cons_self _ _)).2.1
    have h2 := ih (fun x hx => h x (List.mem_cons_of_mem _ hx))
    show (r :: rs).length ≤ (r ++ rs.flatten).length
    simp only [List.length_cons, List.length_append]
    omega

theorem walkRecords_stream (recs : List Bytes) (h : ∀ r, r ∈ recs → WellFramed r) :
    walkRecords (recs.flatten.length + 1) recs.flatten = some (recs.map List.length) :=
  walkRecords_flatten recs _ h (Nat.lt_succ_of_le (length_le_flatten recs h))

theorem preambleRecords_flatten : preambleRecords.flatten = gdspreamble.map toUChar := by
  decide

theorem preambleRecords_wellFramed : ∀ r, r ∈ preambleRecords → WellFramed r := by
  intro r hr
  simp only [preambleRecords, List.mem_cons, List.mem_singleton, List.not_mem_nil,
    or_false] at hr
  rcases hr with h | h | h | h | h | h <;> subst h <;> unfold WellFramed <;> decide

theorem closedList_length (prev : Int × Int) (line : List Int) :
    (closedList prev line).length = line.length + 2 := by
  simp [closedList]

theorem xy_wellFramed (c : List Int) (h : c.length ≤ 512) :
    WellFramed (getPolyForm c.length ++ encodeList c) := by
  have hlen : (getPolyForm c.length ++ encodeList c).length = 4 + 4 * c.length := by
    rw [List.length_append, getPolyForm_length, encodeList_length]
  unfold WellFramed
  rw [hlen, decode16_append _ _ (by rw [getPolyForm_length]; omega), decode16_getPolyForm]
  omega

theorem blockRecords_wellFramed (layerNumber : Int) (c : List Int) (h : c.length ≤ 512) :
    ∀ r, r ∈ blockRecords layerNumber c → WellFramed r := by
  intro r hr
  simp only [blockRecords, List.mem_cons, List.mem_singleton, List.not_mem_nil,
    or_false] at hr
  rcases hr with h1 | h1 | h1 | h1 | h1
  · subst h1; unfold WellFramed; decide
  · subst h1; unfold WellFramed; simp [decode16]
  · subst h1; unfold WellFramed; decide
  · subst h1; exact xy_wellFramed c h
  · subst h1; unfold WellFramed; decide

theorem blockRecords_flatten (layerNumber : Int) (c : List Int) :
    (blockRecords layerNumber c).flatten = polyBlock layerNumber c := by
  rw [polyBlock_list, polyPre_eq]
  simp [blockRecords, List.flatten]

theorem blockRecords_lengths (layerNumber : Int) (c : List Int) :
    (blockRecords layerNumber c).map List.length = [4, 6, 6, 4 + 4 * c.length, 4] := by
  simp [blockRecords, getPolyForm_length, encodeList_length]

theorem linesRecords_flatten (layerNumber : Int) (prev : Int × Int) (lines : List (List Int)) :
    (linesRecords layerNumber prev lines).flatten = (blocks layerNumber prev lines).flatten := by
  induction lines generalizing prev with
  | nil => rfl
  | cons line rest ih =>
    rw [linesRecords, blocks, List.flatten_append, List.flatten_cons, ih, blockRecords_flatten]

theorem linesRecords_lengths (layerNumber : Int) (prev : Int × Int) (lines : List (List Int)) :
    (linesRecords layerNumber prev lines).map List.length = lineRecordLengths lines := by
  induction lines generalizing prev with
  | nil => rfl
  | cons line rest ih =>
    rw [linesRecords, lineRecordLengths, List.map_append, ih, blockRecords_lengths,
      closedList_length]

theorem linesRecords_wellFramed (layerNumber : Int) (prev : Int × Int)
    (lines : List (List Int)) (h : ∀ line, line ∈ lines → Accepted line) :
    ∀ r, r ∈ linesRecords layerNumber prev lines → WellFramed r := by
  induction lines generalizing prev with
  | nil => intro r hr; cases hr
  | cons line rest ih =>
    intro r hr
    rw [linesRecords, List.mem_append] at hr
    rcases hr with hr | hr
    · have hl := (h line (List.mem_cons_self _ _)).2
      exact blockRecords_wellFramed layerNumber _ (by rw [closedList_length]; exact hl) r hr
    · exact ih _ (fun l hl => h l (List.mem_cons_of_mem _ hl)) r hr

theorem lineRecordLengths_bounds (lines : List (List Int))
    (h : ∀ line, line ∈ lines → Accepted line) :
    ∀ L, L ∈ lineRecordLengths lines → L % 2 = 0 ∧ 4 ≤ L ∧ L ≤ 65535 := by
  induction lines with
  | nil => intro L hL; cases hL
  | cons line rest ih =>
    intro L hL
    rw [lineRecordLengths, List.mem_append] at hL
    rcases hL with hL | hL
    · have hl := (h line (List.mem_cons_self _ _)).2
      simp only [List.mem_cons, List.mem_singleton, List.not_mem_nil, or_false] at hL
      rcases hL with h1 | h1 | h1 | h1 | h1 <;> subst h1 <;> omega
    · exact ih (fun l hl => h l (List.mem_cons_of_mem _ hl)) L hL

theorem accepted_of_success (am : Ambles) (lines : List (List Int)) (coords : Nat → Int)
    (lineCount : Nat) (outputFile : Bytes)
    (h : (readLines am lines coords lineCount outputFile).status = Status.success) :
    ∀ line, line ∈ lines → Accepted line := by
  induction lines generalizing coords lineCount outputFile with
  | nil => intro line hl; cases hl
  | cons line rest ih =>
    by_cases hacc : Accepted line
    · have hacc2 := (accepted_iff line coords).mp hacc
      rw [readLines_cons, if_neg (by omega), if_neg hacc2.2] at h
      intro l hl
      rcases List.mem_cons.mp hl with h1 | h1
      · rw [h1]; exact hacc
      · exact ih _ _ _ h l h1
    · rw [readLines_rejected am line rest coords lineCount outputFile hacc] at h
      unfold rejection at h
      by_cases h512 : line.length = 512
      · rw [if_pos h512] at h; cases h
      · rw [if_neg h512] at h; cases h

theorem stream_records (layerNumber : Int) (coords : Nat → Int) (lines : List (List Int))
    (h : ∀ line, line ∈ lines → Accepted line) :
    (mainWith layerNumber coords lines).outputFile =
      (preambleRecords ++ linesRecords layerNumber (coords 0, coords 1) lines ++
        [[0, 4, 7, 0], [0, 4, 4, 0]]).flatten := by
  rw [mainWith_eq, readLines_all_accepted layerNumber lines coords 0 _ h, List.flatten_append,
    List.flatten_append, preambleRecords_flatten, linesRecords_flatten]
  rfl

theorem stream_records_wellFramed (layerNumber : Int) (coords : Nat → Int)
    (lines : List (List Int)) (h : ∀ line, line ∈ lines → Accepted line) :
    ∀ r, r ∈ preambleRecords ++ linesRecords layerNumber (coords 0, coords 1) lines ++
      [[0, 4, 7, 0], [0, 4, 4, 0]] → WellFramed r := by
  intro r hr
  rw [List.mem_append, List.mem_append] at hr
  rcases hr with (hr | hr) | hr
  · exact preambleRecords_wellFramed r hr
  · exact linesRecords_wellFramed layerNumber _ lines h r hr
  · simp only [List.mem_cons, List.mem_singleton, List.not_mem_nil, or_false] at hr
    rcases hr with h1 | h1 <;> subst h1 <;> unfold WellFramed <;> decide

/-- C16: for every successful run, walking the whole output from offset 0, reading a 2-byte
big-endian length `L` and skipping `L` bytes each time, ends exactly at the end of the output
and visits only records with `L` even and `4 ≤ L ≤ 65535`: the six records of the preamble, of
lengths 6, 28, 10, 20, 28, 10, then for each line the records of lengths 4, 6, 6 of the polygon
preamble, the XY record and the closing record of length 4, then the two records of length 4
of the postamble. -/
theorem records_well_framed (layerNumber : Int) (coords : Nat → Int) (lines : List (List Int))
    (h : (mainWith layerNumber coords lines).status = Status.success) :
    walkRecords ((mainWith layerNumber coords lines).outputFile.length + 1)
        (mainWith layerNumber coords lines).outputFile =
      some ([6, 28, 10, 20, 28, 10] ++ lineRecordLengths lines ++ [4, 4]) ∧
    (∀ L, L ∈ [6, 28, 10, 20, 28, 10] ++ lineRecordLengths lines ++ [4, 4] →
      L % 2 = 0 ∧ 4 ≤ L ∧ L ≤ 65535) ∧
    walkRecords 103 (gdspreamble.map toUChar) = some [6, 28, 10, 20, 28, 10] ∧
    walkRecords 17 (amblesOf layerNumber).polyPre = some [4, 6, 6] ∧
    walkRecords 9 (amblesOf layerNumber).gdsPost = some [4, 4] := by
  have hacc : ∀ line, line ∈ lines → Accepted line := by
    rw [mainWith_eq] at h
    exact accepted_of_success _ lines coords 0 _ h
  refine ⟨?_, ?_, by decide, ?_, ?_⟩
  · rw [stream_records layerNumber coords lines hacc,
      walkRecords_stream _ (stream_records_wellFramed layerNumber coords lines hacc),
      List.map_append, List.map_append, linesRecords_lengths]
    rfl
  · intro L hL
    rw [List.mem_append, List.mem_append] at hL
    rcases hL with (hL | hL) | hL
    · simp only [List.mem_cons, List.mem_singleton, List.not_mem_nil, or_false] at hL
      rcases hL with h1 | h1 | h1 | h1 | h1 | h1 <;> subst h1 <;> decide
    · exact lineRecordLengths_bounds lines hacc L hL
    · simp only [List.mem_cons, List.mem_singleton, List.not_mem_nil, or_false] at hL
      rcases hL with h1 | h1 <;> subst h1 <;> decide
  · rw [polyPre_eq]
    have hw : ∀ r, r ∈ [[0, 4, 8, 0], [0, 6, 13, 2, 0, toUChar layerNumber],
        [0, 6, 14, 2, 0, 0]] → WellFramed r := by
      intro r hr
      simp only [List.mem_cons, List.mem_singleton, List.not_mem_nil, or_false] at hr
      rcases hr with h1 | h1 | h1
      · subst h1; unfold WellFramed; decide
      · subst h1; unfold WellFramed; simp [decode16]
      · subst h1; unfold WellFramed; decide
    exact walkRecords_flatten _ 17 hw (by simp)
  · rw [gdsPost_eq]
    decide

theorem records_well_framed_witness :
    walkRecords ((mainWith 0 (fun _ => 0) [[0, 0, 10, 0, 10, 10]]).outputFile.length + 1)
        (mainWith 0 (fun _ => 0) [[0, 0, 10, 0, 10, 10]]).outputFile =
      some ([6, 28, 10, 20, 28, 10] ++ lineRecordLengths [[0, 0, 10, 0, 10, 10]] ++ [4, 4]) :=
  (records_well_framed 0 (fun _ => 0) [[0, 0, 10, 0, 10, 10]] (by decide)).1

/-! ## Over-long lines -/

theorem tokenize_take (ts : List Int) (coords : Nat → Int) (k : Nat) (h : k ≤ 512) :
    tokenize ts coords k = tokenize (ts.take (513 - k)) coords k := by
  induction ts generalizing coords k with
  | nil => simp
  | cons t rest ih =>
    have h1 : 513 - k = (512 - k) + 1 := by omega
    rw [h1, List.take_succ_cons]
    by_cases hk : k + 1 > 512
    · simp only [tokenize, hk, if_true]
    · simp only [tokenize, hk, if_false]
      have h2 : 512 - k = 513 - (k + 1) := by omega
      rw [h2]
      exact ih _ (k + 1) (by omega)

/-- C17: for every line with more than 512 tokens, of either parity, the tokenizing loop stops
after 513 tokens, the closing pair makes the count 515 and the line is rejected through the
odd-coordinate-count branch; the too-many-vertices branch (count even and above 512 after
closing) is reached by the lines of exactly 512 tokens and by no other line. -/
theorem overlong_lines_reported_odd (am : Ambles) (line : List Int) (rest : List (List Int))
    (coords : Nat → Int) (lineCount : Nat) (outputFile : Bytes) :
    (512 < line.length →
      tokenize line coords 0 = tokenize (line.take 513) coords 0 ∧
      (tokenize line coords 0).2 = 513 ∧
      (closeBoundary (tokenize line coords 0).1 (tokenize line coords 0).2).2 = 515 ∧
      readLines am (line :: rest) coords lineCount outputFile =
        ⟨Status.oddCoordinateCount (lineCount + 1), outputFile, lineCount + 1⟩) ∧
    (((closeBoundary (tokenize line coords 0).1 (tokenize line coords 0).2).2 % 2 = 0 ∧
        (closeBoundary (tokenize line coords 0).1 (tokenize line coords 0).2).2 > 512) ↔
      line.length = 512) ∧
    (line.length = 512 →
      readLines am (line :: rest) coords lineCount outputFile =
        ⟨Status.tooManyVertices (lineCount + 1), outputFile, lineCount + 1⟩) := by
  have hc : (tokenize line coords 0).2 = min line.length 513 := tokenize_zero_count line coords
  have hcb : (closeBoundary (tokenize line coords 0).1 (tokenize line coords 0).2).2 =
      (tokenize line coords 0).2 + 2 := rfl
  refine ⟨fun hlong => ⟨tokenize_take line coords 0 (by omega), by rw [hc]; omega,
    by rw [hcb, hc]; omega, readLines_long am line rest coords lineCount outputFile hlong⟩,
    ?_, readLines_512 am line rest coords lineCount outputFile⟩
  rw [hcb, hc]
  omega

theorem overlong_lines_reported_odd_witness :
    readLines (amblesOf 0) [List.replicate 600 0] (fun _ => 0) 0 [] =
      ⟨Status.oddCoordinateCount 1, [], 1⟩ :=
  ((overlong_lines_reported_odd (amblesOf 0) (List.replicate 600 0) [] (fun _ => 0) 0 []).1
    (by rw [List.length_replicate]; omega)).2.2.2

/-! ## Buffer bounds -/

theorem tokenizeWrites_bound (ts : List Int) (k : Nat) (h : k ≤ 512) :
    ∀ i, i ∈ tokenizeWrites ts k → i ≤ 512 := by
  induction ts generalizing k with
  | nil => intro i hi; cases hi
  | cons t rest ih =>
    intro i hi
    rw [tokenizeWrites, List.mem_cons] at hi
    rcases hi with hi | hi
    · omega
    · by_cases hk : k + 1 > 512
      · rw [if_pos hk] at hi; cases hi
      · rw [if_neg hk] at hi
        exact ih (k + 1) (by omega) i hi

/-- The tokenizing loop leaves the buffer unchanged at every index it does not write. -/
theorem tokenize_frame (ts : List Int) (coords : Nat → Int) (k j : Nat)
    (h : j ∉ tokenizeWrites ts k) : (tokenize ts coords k).1 j = coords j := by
  induction ts generalizing coords k with
  | nil => rfl
  | cons t rest ih =>
    rw [tokenizeWrites, List.mem_cons, not_or] at h
    by_cases hk : k + 1 > 512
    · simp only [tokenize, hk, if_true, setAt, if_neg h.1]
    · simp only [tokenize, hk, if_false]
      have h2 := h.2
      rw [if_neg hk] at h2
      rw [ih _ (k + 1) h2]
      simp only [setAt, if_neg h.1]

/-- The closing statements leave the buffer unchanged at every index they do not write. -/
theorem closeBoundary_frame (coords : Nat → Int) (n j : Nat) (h : j ∉ closeWrites n) :
    (closeBoundary coords n).1 j = coords j := by
  simp only [closeWrites, List.mem_cons, List.mem_singleton, List.not_mem_nil, or_false,
    not_or] at h
  rw [closeBoundary_apply, if_neg h.2, if_neg h.1]

theorem exportCalls_cons (line : List Int) (rest : List (List Int)) (coords : Nat → Int) :
    exportCalls (line :: rest) coords =
      if ((tokenize line coords 0).2 + 2) % 2 ≠ 0 then []
      else if (tokenize line coords 0).2 + 2 > 512 then []
      else ((tokenize line coords 0).2 + 2) :: exportCalls rest (closedBuffer coords line) := rfl

/-- The calls of `exportPolygon` in a run whose lines are all accepted: one per line, with the
length of the closed line. -/
theorem exportCalls_accepted (lines : List (List Int)) (coords : Nat → Int)
    (h : ∀ line, line ∈ lines → Accepted line) :
    exportCalls lines coords = lines.map (fun line => line.length + 2) := by
  induction lines generalizing coords with
  | nil => rfl
  | cons line rest ih =>
    have hacc := h line (List.mem_cons_self _ _)
    have hacc2 := (accepted_iff line coords).mp hacc
    have hc : (tokenize line coords 0).2 = line.length := by
      rw [tokenize_zero_count]
      have := hacc.2
      omega
    rw [exportCalls_cons, if_neg (by omega), if_neg hacc2.2, hc,
      ih _ (fun l hl => h l (List.mem_cons_of_mem _ hl))]
    rfl

theorem exportCalls_bound (lines : List (List Int)) (coords : Nat → Int) :
    ∀ tc, tc ∈ exportCalls lines coords → tc % 2 = 0 ∧ 2 ≤ tc ∧ tc ≤ 512 := by
  induction lines generalizing coords with
  | nil => intro tc h; cases h
  | cons line rest ih =>
    intro tc h
    rw [exportCalls_cons] at h
    by_cases h1 : ((tokenize line coords 0).2 + 2) % 2 ≠ 0
    · rw [if_pos h1] at h; cases h
    · rw [if_neg h1] at h
      by_cases h2 : (tokenize line coords 0).2 + 2 > 512
      · rw [if_pos h2] at h; cases h
      · rw [if_neg h2, List.mem_cons] at h
        rcases h with h | h
        · omega
        · exact ih _ tc h

theorem encodePoly32Accesses_bound (n : Nat) :
    ∀ a, a ∈ encodePoly32Accesses n → a.1 < n ∧ a.2 < 4 * n := by
  induction n with
  | zero => intro a h; cases h
  | succ k ih =>
    intro a h
    rw [encodePoly32Accesses, List.mem_append] at h
    rcases h with h | h
    · have := ih a h
      omega
    · simp only [List.mem_cons, List.mem_singleton, List.not_mem_nil, or_false] at h
      rcases h with h | h | h | h <;> subst h <;> simp <;> omega

/-- C18: for every input line, of any length, every index at which `main` writes the buffer
`coords`, while tokenizing and when it appends the closing pair, is at most 514; and
`exportPolygon` is only called with an even `tokenCount` with `2 ≤ tokenCount ≤ 512`, so that
`encodePoly32` reads `coords` only at indices below 512 and writes `cCoords` only at indices
below `4 * tokenCount`. -/
theorem buffer_bounds :
    (∀ (line : List Int) (coords : Nat → Int) (i : Nat),
      i ∈ lineWrites line coords → i ≤ 514) ∧
    (∀ (lines : List (List Int)) (coords : Nat → Int) (tc : Nat),
      tc ∈ exportCalls lines coords →
        tc % 2 = 0 ∧ 2 ≤ tc ∧ tc ≤ 512 ∧
        ∀ a, a ∈ encodePoly32Accesses tc → a.1 < 512 ∧ a.1 < tc ∧ a.2 < 4 * tc) := by
  refine ⟨?_, ?_⟩
  · intro line coords i hi
    rw [lineWrites, List.mem_append] at hi
    rcases hi with hi | hi
    · have := tokenizeWrites_bound line 0 (by omega) i hi
      omega
    · have hc := tokenize_zero_count line coords
      simp only [closeWrites, List.mem_cons, List.mem_singleton, List.not_mem_nil,
        or_false] at hi
      omega
  · intro lines coords tc htc
    obtain ⟨h1, h2, h3⟩ := exportCalls_bound lines coords tc htc
    refine ⟨h1, h2, h3, fun a ha => ?_⟩
    have := encodePoly32Accesses_bound tc a ha
    omega

theorem buffer_bounds_witness :
    (514 ≤ 514) ∧
    (6 % 2 = 0 ∧ 2 ≤ 6 ∧ 6 ≤ 512 ∧
      ∀ a, a ∈ encodePoly32Accesses 6 → a.1 < 512 ∧ a.1 < 6 ∧ a.2 < 4 * 6) :=
  ⟨buffer_bounds.1 (List.replicate 513 0) (fun _ => 0) 514 (by
      rw [lineWrites, tokenize_zero_count, List.length_replicate]
      exact List.mem_append.mpr (Or.inr (by decide))),
    buffer_bounds.2 [[1, 2, 3, 4]] (fun _ => 0) 6 (by decide)⟩

end Text2Gds
